import Mathlib

/-!
Verification of the story generator module
(`backend/core/story_generator.py`).

Texts are modelled as `List Char`.  The module has three parts:

* `_extract_json` — the string-literal-aware brace scanner that locates a
  balanced JSON object inside raw model output;
* `_call_gemini_api` — the 2xx response-payload handling (the network
  transport itself is outside the model; the payload cases are modelled
  exactly as the source branches on the parsed response JSON);
* `generate_story` / `_process_story_node` — fallback policy and the
  recursive persistence of the decoded tree into Story/StoryNode rows.

Python's `json.loads` is modelled by an executable JSON syntax recognizer
(`parseValue` and friends, RFC 8259 plus the NaN/Infinity extensions that
Python accepts).  All functions are total: the Python code catches every
exception it can raise internally, and the paths that do raise are
modelled with `Except`.
-/

/-- JSON whitespace, the characters Python's `json.loads` skips. -/
def isJsonWs (c : Char) : Bool :=
  c = ' ' || c = '\t' || c = '\n' || c = '\r'

/-- Skip leading JSON whitespace. -/
def skipWs (s : List Char) : List Char := s.dropWhile isJsonWs

/-- Hex digit test for `\u` escapes. -/
def isHexDig (c : Char) : Bool :=
  c.isDigit || ('a' ≤ c && c ≤ 'f') || ('A' ≤ c && c ≤ 'F')

/-- The one-character JSON string escapes. -/
def isSimpleEscape (c : Char) : Bool :=
  c = '"' || c = '\\' || c = '/' || c = 'b' || c = 'f' || c = 'n' || c = 'r' || c = 't'

/-- Consume the body of a JSON string literal after the opening quote,
including the closing quote; returns the remaining input.  Control
characters below 0x20 are rejected, as in Python's strict mode.
Fuel-indexed (the fuel dominates the input length at every call site). -/
def parseStringBody : Nat → List Char → Option (List Char)
  | 0, _ => none
  | f + 1, s =>
    match s with
    | [] => none
    | c :: r =>
      if c = '"' then some r
      else if c = '\\' then
        match r with
        | [] => none
        | e :: r2 =>
          if isSimpleEscape e then parseStringBody f r2
          else if e = 'u' then
            match r2 with
            | h1 :: h2 :: h3 :: h4 :: r3 =>
              if isHexDig h1 && isHexDig h2 && isHexDig h3 && isHexDig h4 then
                parseStringBody f r3
              else none
            | _ => none
          else none
      else if 0x20 ≤ c.toNat then parseStringBody f r else none

/-- Consume the digits of a JSON exponent, with optional sign. -/
def parseExpTail (s : List Char) : Option (List Char) :=
  let r2 := match s with
    | c :: t => if c = '+' || c = '-' then t else c :: t
    | [] => []
  if (r2.takeWhile Char.isDigit).isEmpty then none
  else some (r2.dropWhile Char.isDigit)

/-- Consume the optional fraction and exponent of a JSON number. -/
def parseFracExp (s : List Char) : Option (List Char) :=
  let fr : Option (List Char) := match s with
    | c :: r =>
      if c = '.' then
        if (r.takeWhile Char.isDigit).isEmpty then none
        else some (r.dropWhile Char.isDigit)
      else some s
    | [] => some s
  match fr with
  | none => none
  | some s2 =>
    match s2 with
    | c :: r => if c = 'e' || c = 'E' then parseExpTail r else some s2
    | [] => some s2

/-- Consume a JSON number (RFC 8259 grammar). -/
def parseNumber (s : List Char) : Option (List Char) :=
  let s1 := match s with
    | c :: t => if c = '-' then t else c :: t
    | [] => []
  match s1 with
  | [] => none
  | c :: r =>
    if c = '0' then parseFracExp r
    else if c.isDigit then parseFracExp (r.dropWhile Char.isDigit)
    else none

/-- Consume an expected literal tail (e.g. `rue` after `t`). -/
def dropLit : List Char → List Char → Option (List Char)
  | [], s => some s
  | l :: ls, c :: r => if c = l then dropLit ls r else none
  | _ :: _, [] => none

mutual

/-- Recognize one JSON value, the grammar accepted by Python's
`json.loads` (RFC 8259 plus `NaN`, `Infinity`, `-Infinity`); returns the
remaining input.  Fuel-indexed to bound the mutual recursion. -/
def parseValue : Nat → List Char → Option (List Char)
  | 0, _ => none
  | f + 1, s =>
    match s with
    | [] => none
    | c :: r =>
      if c = '{' then parseObjectRest f (skipWs r)
      else if c = '[' then parseArrayRest f (skipWs r)
      else if c = '"' then parseStringBody f r
      else if c = 't' then dropLit ['r', 'u', 'e'] r
      else if c = 'f' then dropLit ['a', 'l', 's', 'e'] r
      else if c = 'n' then dropLit ['u', 'l', 'l'] r
      else if c = 'N' then dropLit ['a', 'N'] r
      else if c = 'I' then dropLit ['n', 'f', 'i', 'n', 'i', 't', 'y'] r
      else if c = '-' then
        match r with
        | c2 :: r2 => if c2 = 'I' then dropLit ['n', 'f', 'i', 'n', 'i', 't', 'y'] r2
                      else parseNumber s
        | [] => parseNumber s
      else parseNumber s
termination_by structural f _ => f

/-- After the `{` of an object (whitespace already skipped): either the
closing brace or a member list. -/
def parseObjectRest : Nat → List Char → Option (List Char)
  | 0, _ => none
  | f + 1, s =>
    match s with
    | [] => none
    | c :: r =>
      if c = '}' then some r
      else parseMembers f s
termination_by structural f _ => f

/-- One or more `string : value` members, separated by commas, ended by
the closing brace (which is consumed). -/
def parseMembers : Nat → List Char → Option (List Char)
  | 0, _ => none
  | f + 1, s =>
    match s with
    | [] => none
    | c :: r =>
      if c = '"' then
        match parseStringBody f r with
        | none => none
        | some s1 =>
          match skipWs s1 with
          | [] => none
          | c2 :: s2 =>
            if c2 = ':' then
              match parseValue f (skipWs s2) with
              | none => none
              | some s3 =>
                match skipWs s3 with
                | [] => none
                | c3 :: s4 =>
                  if c3 = ',' then parseMembers f (skipWs s4)
                  else if c3 = '}' then some s4
                  else none
            else none
      else none
termination_by structural f _ => f

/-- After the `[` of an array (whitespace already skipped): either the
closing bracket or an element list. -/
def parseArrayRest : Nat → List Char → Option (List Char)
  | 0, _ => none
  | f + 1, s =>
    match s with
    | [] => none
    | c :: r =>
      if c = ']' then some r
      else parseElements f s
termination_by structural f _ => f

/-- One or more elements separated by commas, ended by the closing
bracket (which is consumed). -/
def parseElements : Nat → List Char → Option (List Char)
  | 0, _ => none
  | f + 1, s =>
    match parseValue f (skipWs s) with
    | none => none
    | some s1 =>
      match skipWs s1 with
      | [] => none
      | c :: s2 =>
        if c = ',' then parseElements f (skipWs s2)
        else if c = ']' then some s2
        else none
termination_by structural f _ => f

end

/-- Model of Python `json.loads` succeeding on `s` (syntax check only;
`loads` allows surrounding whitespace and requires the whole input to be
one value).  The fuel `3 * s.length + 3` dominates every recursion chain
of the grammar. -/
def json_loads_ok (s : List Char) : Bool :=
  match parseValue (3 * s.length + 3) (skipWs s) with
  | some r => (skipWs r).isEmpty
  | none => false

/-- The brace-matching scan loop of `_extract_json` (source lines 33-58).
State: brace `depth`, `inString` and `escapeNext` flags exactly as in the
Python loop; `acc` holds the characters already scanned, in reverse, so
the Python index condition `i > start_idx` is `acc ≠ []` and the slice
`text[start_idx:i+1]` is `(c :: acc).reverse`.  `none` models the loop
running off the end of the text without the depth returning to zero. -/
def scanGo : Int → Bool → Bool → List Char → List Char → Option (List Char)
  | _, _, _, _, [] => none
  | depth, inString, escapeNext, acc, c :: rest =>
    if c = '\\' ∧ escapeNext = false then
      scanGo depth inString true (c :: acc) rest
    else
      let inString' := if c = '"' ∧ escapeNext = false then !inString else inString
      if inString' = false then
        let depth' := if c = '{' then depth + 1 else if c = '}' then depth - 1 else depth
        if depth' = 0 ∧ acc ≠ [] then some ((c :: acc).reverse)
        else scanGo depth' false false (c :: acc) rest
      else scanGo depth inString' false (c :: acc) rest

/-- `StoryGenerator._extract_json` (source lines 16-69): find the first
`{`, scan for the matching close brace (string-literal aware), validate
the candidate with `json.loads`; on any failure — no `{`, no matching
close, or the `json.loads` call raising (the enclosing `try/except`
catches it) — return the original text.  The function is total because
the source catches every exception. -/
def _extract_json (text : List Char) : List Char :=
  match text.findIdx? (fun c => c = '{') with
  | none => text
  | some start_idx =>
    match scanGo 0 false false [] (text.drop start_idx) with
    | some json_str => if json_loads_ok json_str then json_str else text
    | none => text

/-! ### Gemini response payload handling (`_call_gemini_api`, lines 70-127)

Only the pure 2xx-payload branch structure is modelled; the transport
(HTTP POST, timeout, `raise_for_status`) is outside the model.  Missing
dictionary keys are `Option` fields; an access the source performs
unconditionally on a missing key is the `KeyError` path, which the outer
`except Exception` clause wraps and re-raises. -/

/-- One entry of `content['parts']`; the `text` key may be absent. -/
structure GPart where
  text : Option (List Char)
deriving Repr, DecidableEq

/-- A candidate's `content` value; the `parts` key may be absent. -/
structure GContent where
  parts : Option (List GPart)
deriving Repr, DecidableEq

/-- One entry of `response_json['candidates']`; `content` may be absent. -/
structure GCandidate where
  content : Option GContent
deriving Repr, DecidableEq

/-- The `error` object of a response; `message` may be absent. -/
structure GError where
  message : Option (List Char)
deriving Repr, DecidableEq

/-- A parsed 2xx response body. -/
structure GeminiResponse where
  candidates : Option (List GCandidate)
  error : Option GError
deriving Repr, DecidableEq

/-- The error-check fallthrough at lines 109-117: reached when no usable
candidate text was found without raising.  An `error` object raises
(wrapped twice: `Gemini API error:` then, by the outer `except` clause,
`Error calling Gemini API:`); otherwise the function RETURNS the generic
string. -/
def gemini_error_check (rj : GeminiResponse) : Except (List Char) (List Char) :=
  match rj.error with
  | some e =>
    Except.error (("Error calling Gemini API: Gemini API error: ").data ++
      (match e.message with
       | some m => m
       | none => ("Unknown API error").data))
  | none => Except.ok ("No valid response from Gemini API").data

/-- 2xx payload handling of `_call_gemini_api` (source lines 101-117):
if a first candidate with `content.parts[0].text` exists, the text is
passed through `_extract_json` and returned; accessing a missing
`content` or `text` key raises a `KeyError`, which the outer
`except Exception` clause wraps; otherwise fall through to the error
check.  `Except.error` models the call raising. -/
def handle_gemini_response (rj : GeminiResponse) : Except (List Char) (List Char) :=
  match rj.candidates with
  | some (c0 :: _) =>
    match c0.content with
    | none => Except.error ("Error calling Gemini API: ").data
    | some content =>
      match content.parts with
      | some (p0 :: _) =>
        match p0.text with
        | none => Except.error ("Error calling Gemini API: ").data
        | some t => Except.ok (_extract_json t)
      | _ => gemini_error_check rj
  | _ => gemini_error_check rj

/-! ### Data model

`StoryLLMResponse` / `StoryNodeLLM` live in `core/models.py` and the ORM
rows `Story` / `StoryNode` in `models/story.py`, neither of which is in
the sources.  Modelled from the spec: section 3 gives
`StoryTreeDescription = (title, rootNode)`,
`NodeDescription = (content, isEnding, isWinningEnding, options)` with
`options` an ordered sequence of `(text, nextNode)` pairs, and the
persisted rows `Story(id, title, session_id)` and `StoryNode(id,
story_id, content, is_root, is_ending, is_winning_ending, options)` with
`options` an ordered sequence of `(text, node_id)` pairs. -/

/-- Modelled from the spec: `NodeDescription` (transient; `core.models.
StoryNodeLLM` is not in the sources).  `options` is the ordered list of
`(text, nextNode)` pairs. -/
inductive StoryNodeLLM where
  | mk : List Char → Bool → Bool → List (List Char × StoryNodeLLM) → StoryNodeLLM
deriving Repr

/-- The `content` field of a node description. -/
def StoryNodeLLM.content : StoryNodeLLM → List Char
  | .mk c _ _ _ => c

/-- The `isEnding` field of a node description. -/
def StoryNodeLLM.isEnding : StoryNodeLLM → Bool
  | .mk _ e _ _ => e

/-- The `isWinningEnding` field of a node description. -/
def StoryNodeLLM.isWinningEnding : StoryNodeLLM → Bool
  | .mk _ _ w _ => w

/-- The `options` field of a node description. -/
def StoryNodeLLM.options : StoryNodeLLM → List (List Char × StoryNodeLLM)
  | .mk _ _ _ os => os

/-- Modelled from the spec: `StoryTreeDescription` (`core.models.
StoryLLMResponse` is not in the sources). -/
structure StoryLLMResponse where
  title : List Char
  rootNode : StoryNodeLLM
deriving Repr

/-- Modelled from the spec: a persisted `Story` row
(`models.story.Story` is not in the sources). -/
structure StoryRow where
  id : Nat
  title : List Char
  session_id : List Char
deriving Repr, DecidableEq

/-- Modelled from the spec: a persisted `StoryNode` row
(`models.story.StoryNode` is not in the sources).  `options` is the
ordered list of `(text, node_id)` pairs stored on the node. -/
structure NodeRow where
  id : Nat
  story_id : Nat
  content : List Char
  is_root : Bool
  is_ending : Bool
  is_winning_ending : Bool
  options : List (List Char × Nat)
deriving Repr, DecidableEq

/-- The transactional session: persisted rows plus the id sequences the
store assigns on flush.  `flush` makes generated ids visible, `commit`
ends the transaction; both are modelled by the state itself. -/
structure DB where
  stories : List StoryRow
  nodes : List NodeRow
  nextStoryId : Nat
  nextNodeId : Nat
deriving Repr, DecidableEq

/-- Ids already persisted are older than the next id the store will
assign.  Any reachable session state satisfies this; it is what makes
the assigned ids fresh. -/
def NodesWf (db : DB) : Prop :=
  ∀ r ∈ db.nodes, r.id < db.nextNodeId

/-- An empty session. -/
def emptyDB : DB := ⟨[], [], 1, 1⟩

/-- `node.options = options_list` on a flushed row: rewrite the options
field of the row with the given id. -/
def updateNodeOptions (db : DB) (nid : Nat) (opts : List (List Char × Nat)) : DB :=
  { db with nodes := db.nodes.map (fun r => if r.id = nid then { r with options := opts } else r) }

mutual

/-- `StoryGenerator._process_story_node` (source lines 197-228): create
the row with an empty options list and flush it (assigning its id); if
the node is not an ending and its description carries options, persist
each option's child in order, collect `(text, childId)` pairs, and store
them on this row.  Returns the updated session and the new row's id. -/
def _process_story_node (story_id : Nat) (node_data : StoryNodeLLM) (is_root : Bool) (db : DB) : DB × Nat :=
  match node_data with
  | .mk content isEnding isWinningEnding opts =>
    let node : NodeRow :=
      ⟨db.nextNodeId, story_id, content, is_root, isEnding, isWinningEnding, []⟩
    let db1 : DB := { db with nodes := db.nodes ++ [node], nextNodeId := db.nextNodeId + 1 }
    if isEnding = false ∧ opts.isEmpty = false then
      let r := processOptions story_id opts db1
      (updateNodeOptions r.1 node.id r.2, node.id)
    else (db1, node.id)

/-- The `for option_data in node_data.options` loop body: persist each
child (never as root) and accumulate the `(text, node_id)` entries in
input order. -/
def processOptions (story_id : Nat) (opts : List (List Char × StoryNodeLLM)) (db : DB) : DB × List (List Char × Nat) :=
  match opts with
  | [] => (db, [])
  | (t, child) :: rest =>
    let rc := _process_story_node story_id child false db
    let rr := processOptions story_id rest rc.1
    (rr.1, (t, rc.2) :: rr.2)

end

/-- Python `str.capitalize()` (ASCII model): first character upper-cased,
the rest lower-cased. -/
def pyCapitalize : List Char → List Char
  | [] => []
  | c :: r => c.toUpper :: r.map Char.toLower

/-- The story structure resolved by the nested `try/except` of
`generate_story` (source lines 140-195): a transport/API error from the
call yields the error fallback; a `json.loads` failure or a validation
failure yields the truncated-text fallback; otherwise the validated
structure is used.  Schema validation (`StoryLLMResponse.model_validate`)
is the spec's black-box "validate or fail" capability, passed in as
`validate`, consulted only when `json.loads` succeeds. -/
def resolve_structure (validate : List Char → Option StoryLLMResponse)
    (callResult : Except (List Char) (List Char)) (theme : List Char) : StoryLLMResponse :=
  match callResult with
  | Except.error e =>
    ⟨("Error: ").data ++ pyCapitalize theme ++ (" Story").data,
     .mk (("We encountered an error while generating your story: ").data ++ e) true false []⟩
  | Except.ok response_text =>
    if json_loads_ok response_text then
      match validate response_text with
      | some s => s
      | none =>
        ⟨pyCapitalize theme ++ (" Story").data,
         .mk (response_text.take 500) true true []⟩
    else
      ⟨pyCapitalize theme ++ (" Story").data,
       .mk (response_text.take 500) true true []⟩

/-- `StoryGenerator.generate_story` (source lines 129-195): resolve the
story structure (with fallbacks), add and flush the `Story` row (its id
becomes visible), recursively persist the root node with `is_root=true`,
and commit.  `callResult` is the outcome of `_call_gemini_api`
(`Except.error` = the call raised).  Returns the session after commit
and the returned story's id. -/
def generate_story (validate : List Char → Option StoryLLMResponse)
    (callResult : Except (List Char) (List Char))
    (session_id theme : List Char) (db : DB) : DB × Nat :=
  let story_structure := resolve_structure validate callResult theme
  let story_db : StoryRow := ⟨db.nextStoryId, story_structure.title, session_id⟩
  let db1 : DB := { db with stories := db.stories ++ [story_db], nextStoryId := db.nextStoryId + 1 }
  let r := _process_story_node story_db.id story_structure.rootNode true db1
  (r.1, story_db.id)

/-! ### Characterization layer

Pure spec-level functions describing what `_process_story_node` appends
to the session: the exact rows (`rowsOf`), their number (`prunedCount` —
the source skips the options of ending nodes, so the persisted count is
the count of the pruned description), and a reconstruction (`reload`)
used to state the shape round-trip. -/

mutual

/-- Number of rows one call persists for this description: ending nodes
(and nodes with no options) contribute one row and their described
children are skipped, mirroring the guard in `_process_story_node`. -/
def prunedCount : StoryNodeLLM → Nat
  | .mk _ e _ opts =>
    if e = false ∧ opts.isEmpty = false then 1 + prunedCountList opts else 1

/-- Sum of `prunedCount` over the children of an options list. -/
def prunedCountList : List (List Char × StoryNodeLLM) → Nat
  | [] => 0
  | (_, child) :: rest => prunedCount child + prunedCountList rest

end

mutual

/-- Total number of nodes in a description tree. -/
def nodeCount : StoryNodeLLM → Nat
  | .mk _ _ _ opts => 1 + nodeCountList opts

/-- Sum of `nodeCount` over the children of an options list. -/
def nodeCountList : List (List Char × StoryNodeLLM) → Nat
  | [] => 0
  | (_, child) :: rest => nodeCount child + nodeCountList rest

end

/-- The `(text, node_id)` entries stored on a non-ending node whose first
child row gets id `n`: children occupy consecutive blocks of fresh ids. -/
def optEntries (n : Nat) : List (List Char × StoryNodeLLM) → List (List Char × Nat)
  | [] => []
  | (t, child) :: rest => (t, n) :: optEntries (n + prunedCount child) rest

mutual

/-- The rows `_process_story_node` appends for this description when its
row gets the fresh id `n`, in creation order (parent first, then each
child block in option order). -/
def rowsOf (sid n : Nat) (root : Bool) : StoryNodeLLM → List NodeRow
  | .mk c e w opts =>
    if e = false ∧ opts.isEmpty = false then
      ⟨n, sid, c, root, e, w, optEntries (n + 1) opts⟩ :: rowsOfList sid (n + 1) opts
    else [⟨n, sid, c, root, e, w, []⟩]

/-- The rows appended for each child of an options list, in order. -/
def rowsOfList (sid n : Nat) : List (List Char × StoryNodeLLM) → List NodeRow
  | [] => []
  | (_, child) :: rest =>
    rowsOf sid n false child ++ rowsOfList sid (n + prunedCount child) rest

end

mutual

/-- The description tree restricted to what the source persists: the
options of ending nodes are dropped. -/
def prune : StoryNodeLLM → StoryNodeLLM
  | .mk c e w opts =>
    .mk c e w (if e = false ∧ opts.isEmpty = false then pruneList opts else [])

/-- `prune` mapped over an options list. -/
def pruneList : List (List Char × StoryNodeLLM) → List (List Char × StoryNodeLLM)
  | [] => []
  | (t, child) :: rest => (t, prune child) :: pruneList rest

end

mutual

/-- No node of the tree is an ending carrying options (the spec's
"options is meaningful only when isEnding is false" invariant). -/
def noEndingOpts : StoryNodeLLM → Bool
  | .mk _ e _ opts => if e then opts.isEmpty else noEndingOptsList opts

/-- `noEndingOpts` over an options list. -/
def noEndingOptsList : List (List Char × StoryNodeLLM) → Bool
  | [] => true
  | (_, child) :: rest => noEndingOpts child && noEndingOptsList rest

end

/-- Look up a persisted row by id. -/
def findNode (nodes : List NodeRow) (nid : Nat) : Option NodeRow :=
  nodes.find? (fun r => r.id = nid)

mutual

/-- Rebuild a description tree from persisted rows by following the
`node_id` references of the stored options, fuel-bounded. -/
def reload (nodes : List NodeRow) : Nat → Nat → Option StoryNodeLLM
  | 0, _ => none
  | fuel + 1, nid =>
    match findNode nodes nid with
    | none => none
    | some r =>
      match reloadOpts nodes fuel r.options with
      | none => none
      | some opts => some (.mk r.content r.is_ending r.is_winning_ending opts)
termination_by fuel _nid => (fuel, 0)

/-- Rebuild each referenced child of a stored options list. -/
def reloadOpts (nodes : List NodeRow) : Nat → List (List Char × Nat) → Option (List (List Char × StoryNodeLLM))
  | _, [] => some []
  | fuel, (t, cid) :: rest =>
    match reload nodes fuel cid with
    | none => none
    | some child =>
      match reloadOpts nodes fuel rest with
      | none => none
      | some others => some ((t, child) :: others)
termination_by fuel rest => (fuel, rest.length + 1)

end


/-- Characters with no special role in the brace scan outside string
literals: anything but backslash, quote and the two braces. -/
def scanPlain (c : Char) : Bool :=
  !(c = '\\' || c = '"' || c = '{' || c = '}')

/-- A segment the scan loop passes through transparently when it enters
outside a string literal at positive depth: the scanner neither fires
the depth-zero return nor changes its state, it just accumulates the
segment's characters. -/
def ScanPass (seg : List Char) : Prop :=
  ∀ (d : Int) (acc rest : List Char), 1 ≤ d →
    scanGo d false false acc (seg ++ rest) =
      scanGo d false false (seg.reverse ++ acc) rest

/-- Same as `ScanPass` for a segment entered inside a string literal
(the body of a JSON string including its closing quote): the scanner
leaves the string and accumulates the characters. -/
def StringBodyPass (seg : List Char) : Prop :=
  ∀ (d : Int) (acc rest : List Char), 1 ≤ d →
    scanGo d true false acc (seg ++ rest) =
      scanGo d false false (seg.reverse ++ acc) rest

/-! ### Lemmas: the rows `_process_story_node` appends -/

theorem prunedCount_pos (d : StoryNodeLLM) : 1 ≤ prunedCount d := by
  cases d
  rw [prunedCount]
  split <;> omega

theorem rowsOf_id_range (sid n : Nat) (root : Bool) (d : StoryNodeLLM) :
    ∀ r ∈ rowsOf sid n root d, n ≤ r.id ∧ r.id < n + prunedCount d := by
  refine rowsOf.induct sid
    (fun n root d => ∀ r ∈ rowsOf sid n root d, n ≤ r.id ∧ r.id < n + prunedCount d)
    (fun n opts => ∀ r ∈ rowsOfList sid n opts, n ≤ r.id ∧ r.id < n + prunedCountList opts)
    ?_ ?_ ?_ ?_ n root d
  · intro n root c e w opts hcond ih r hr
    rw [rowsOf, if_pos hcond] at hr
    rw [prunedCount, if_pos hcond]
    rcases List.mem_cons.mp hr with h | h
    · subst h; simp
    · have := ih r h; omega
  · intro n root c e w opts hcond r hr
    rw [rowsOf, if_neg hcond] at hr
    rw [prunedCount, if_neg hcond]
    rcases List.mem_cons.mp hr with h | h
    · subst h; simp
    · simp at h
  · intro n r hr
    rw [rowsOfList] at hr
    simp at hr
  · intro n t child rest ih1 ih2 r hr
    rw [rowsOfList] at hr
    rw [prunedCountList]
    rcases List.mem_append.mp hr with h | h
    · have := ih1 r h; omega
    · have := ih2 r h; omega

theorem rowsOfList_id_range (sid : Nat) (opts : List (List Char × StoryNodeLLM)) :
    ∀ n, ∀ r ∈ rowsOfList sid n opts, n ≤ r.id ∧ r.id < n + prunedCountList opts := by
  induction opts with
  | nil => intro n r hr; rw [rowsOfList] at hr; simp at hr
  | cons p rest ih =>
    intro n r hr
    obtain ⟨t, child⟩ := p
    rw [rowsOfList] at hr
    rw [prunedCountList]
    rcases List.mem_append.mp hr with h | h
    · have := rowsOf_id_range sid n false child r h; omega
    · have := ih (n + prunedCount child) r h; omega

theorem rowsOf_length (sid n : Nat) (root : Bool) (d : StoryNodeLLM) :
    (rowsOf sid n root d).length = prunedCount d := by
  refine rowsOf.induct sid
    (fun n root d => (rowsOf sid n root d).length = prunedCount d)
    (fun n opts => (rowsOfList sid n opts).length = prunedCountList opts)
    ?_ ?_ ?_ ?_ n root d
  · intro n root c e w opts hcond ih
    rw [rowsOf, if_pos hcond, prunedCount, if_pos hcond]
    simp [ih]; omega
  · intro n root c e w opts hcond
    rw [rowsOf, if_neg hcond, prunedCount, if_neg hcond]
    simp
  · intro n; rw [rowsOfList, prunedCountList]; rfl
  · intro n t child rest ih1 ih2
    rw [rowsOfList, prunedCountList]
    simp [ih1, ih2]

theorem map_update_of_ne (l : List NodeRow) (nid : Nat) (opts : List (List Char × Nat))
    (h : ∀ r ∈ l, r.id ≠ nid) :
    l.map (fun r => if r.id = nid then { r with options := opts } else r) = l := by
  induction l with
  | nil => rfl
  | cons a l ih =>
    have ha : a.id ≠ nid := h a (List.mem_cons_self a l)
    simp only [List.map_cons, if_neg ha]
    rw [ih (fun r hr => h r (List.mem_cons_of_mem a hr))]

/-- Exact effect of `_process_story_node` on a well-formed session: it
appends precisely the rows of `rowsOf` (children of ending nodes are
skipped), advances the node id sequence by `prunedCount`, touches nothing
else, and returns the fresh id of the node's own row. -/
theorem process_story_node_spec (sid : Nat) (d : StoryNodeLLM) (root : Bool) (db : DB)
    (hwf : NodesWf db) :
    _process_story_node sid d root db =
      ({ db with nodes := db.nodes ++ rowsOf sid db.nextNodeId root d,
                 nextNodeId := db.nextNodeId + prunedCount d }, db.nextNodeId) := by
  refine rowsOf.induct sid
    (fun n root d => ∀ db : DB, NodesWf db → db.nextNodeId = n →
      _process_story_node sid d root db =
        ({ db with nodes := db.nodes ++ rowsOf sid n root d,
                   nextNodeId := n + prunedCount d }, n))
    (fun n opts => ∀ db : DB, NodesWf db → db.nextNodeId = n →
      processOptions sid opts db =
        ({ db with nodes := db.nodes ++ rowsOfList sid n opts,
                   nextNodeId := n + prunedCountList opts },
         optEntries n opts))
    ?_ ?_ ?_ ?_ db.nextNodeId root d db hwf rfl
  · intro n root c e w opts hcond ih db hwf hn
    subst hn
    have hwf1 : NodesWf ⟨db.stories,
        db.nodes ++ [⟨db.nextNodeId, sid, c, root, e, w, []⟩],
        db.nextStoryId, db.nextNodeId + 1⟩ := by
      intro r hr
      rcases List.mem_append.mp hr with h | h
      · exact Nat.lt_succ_of_lt (hwf r h)
      · simp at h; subst h; exact Nat.lt_succ_self _
    simp only [_process_story_node]
    rw [if_pos hcond]
    rw [ih _ hwf1 rfl]
    rw [rowsOf, if_pos hcond, prunedCount, if_pos hcond]
    rw [updateNodeOptions]
    simp only [Prod.mk.injEq, DB.mk.injEq, true_and, and_true]
    refine ⟨?_, by omega⟩
    rw [List.map_append, List.map_append]
    rw [map_update_of_ne db.nodes _ _ (fun r hr => Nat.ne_of_lt (hwf r hr))]
    rw [map_update_of_ne (rowsOfList sid (db.nextNodeId + 1) opts) _ _
      (fun r hr => by
        have := rowsOfList_id_range sid opts (db.nextNodeId + 1) r hr
        omega)]
    simp
  · intro n root c e w opts hcond db hwf hn
    subst hn
    simp only [_process_story_node]
    rw [if_neg hcond]
    rw [rowsOf, if_neg hcond, prunedCount, if_neg hcond]
  · intro n db hwf hn
    subst hn
    simp only [processOptions]
    rw [rowsOfList, prunedCountList, optEntries]
    simp
  · intro n t child rest ih1 ih2 db hwf hn
    subst hn
    simp only [processOptions]
    rw [ih1 db hwf rfl]
    have hwfR : NodesWf ⟨db.stories,
        db.nodes ++ rowsOf sid db.nextNodeId false child,
        db.nextStoryId, db.nextNodeId + prunedCount child⟩ := by
      intro r hr
      show r.id < db.nextNodeId + prunedCount child
      rcases List.mem_append.mp hr with h | h
      · have h1 := hwf r h
        have h2 := prunedCount_pos child
        omega
      · have := rowsOf_id_range sid db.nextNodeId false child r h
        omega
    rw [ih2 _ hwfR rfl]
    rw [rowsOfList, prunedCountList, optEntries]
    simp only [Prod.mk.injEq, DB.mk.injEq, true_and, and_true]
    exact ⟨by simp, by omega⟩

theorem rowsOfList_is_root_false (sid : Nat) (opts : List (List Char × StoryNodeLLM)) (n : Nat) :
    ∀ r ∈ rowsOfList sid n opts, r.is_root = false := by
  refine rowsOfList.induct sid
    (fun n root d => root = false → ∀ r ∈ rowsOf sid n root d, r.is_root = false)
    (fun n opts => ∀ r ∈ rowsOfList sid n opts, r.is_root = false)
    ?_ ?_ ?_ ?_ n opts
  · intro n root c e w opts hcond ih hroot r hr
    subst hroot
    rw [rowsOf, if_pos hcond] at hr
    rcases List.mem_cons.mp hr with h | h
    · subst h; rfl
    · exact ih r h
  · intro n root c e w opts hcond hroot r hr
    subst hroot
    rw [rowsOf, if_neg hcond] at hr
    rcases List.mem_cons.mp hr with h | h
    · subst h; rfl
    · simp at h
  · intro n r hr
    rw [rowsOfList] at hr
    simp at hr
  · intro n t child rest ih1 ih2 r hr
    rw [rowsOfList] at hr
    rcases List.mem_append.mp hr with h | h
    · exact ih1 rfl r h
    · exact ih2 r h

theorem rowsOf_cons_root (sid n : Nat) (root : Bool) (d : StoryNodeLLM) :
    ∃ tl, rowsOf sid n root d
        = ⟨n, sid, d.content, root, d.isEnding, d.isWinningEnding,
            if d.isEnding = false ∧ d.options.isEmpty = false then optEntries (n + 1) d.options
            else []⟩ :: tl
      ∧ ∀ r ∈ tl, r.is_root = false := by
  obtain ⟨c, e, w, opts⟩ := d
  simp only [StoryNodeLLM.content, StoryNodeLLM.isEnding, StoryNodeLLM.isWinningEnding,
    StoryNodeLLM.options]
  rw [rowsOf]
  by_cases hcond : e = false ∧ opts.isEmpty = false
  · refine ⟨rowsOfList sid (n + 1) opts, ?_, rowsOfList_is_root_false sid opts (n + 1)⟩
    rw [if_pos hcond, if_pos hcond]
  · refine ⟨[], ?_, by simp⟩
    rw [if_neg hcond, if_neg hcond]

theorem rowsOf_ending_options_empty (sid n : Nat) (root : Bool) (d : StoryNodeLLM) :
    ∀ r ∈ rowsOf sid n root d, r.is_ending = true → r.options = [] := by
  refine rowsOf.induct sid
    (fun n root d => ∀ r ∈ rowsOf sid n root d, r.is_ending = true → r.options = [])
    (fun n opts => ∀ r ∈ rowsOfList sid n opts, r.is_ending = true → r.options = [])
    ?_ ?_ ?_ ?_ n root d
  · intro n root c e w opts hcond ih r hr hre
    rw [rowsOf, if_pos hcond] at hr
    rcases List.mem_cons.mp hr with h | h
    · subst h
      simp at hre
      exact absurd hre (by simp [hcond.1])
    · exact ih r h hre
  · intro n root c e w opts hcond r hr _hre
    rw [rowsOf, if_neg hcond] at hr
    rcases List.mem_cons.mp hr with h | h
    · subst h; rfl
    · simp at h
  · intro n r hr
    rw [rowsOfList] at hr
    simp at hr
  · intro n t child rest ih1 ih2 r hr hre
    rw [rowsOfList] at hr
    rcases List.mem_append.mp hr with h | h
    · exact ih1 r h hre
    · exact ih2 r h hre

theorem noEndingOpts_pruned_eq_total (d : StoryNodeLLM) :
    noEndingOpts d = true → prunedCount d = nodeCount d := by
  refine prunedCount.induct
    (fun d => noEndingOpts d = true → prunedCount d = nodeCount d)
    (fun opts => noEndingOptsList opts = true → prunedCountList opts = nodeCountList opts)
    ?_ ?_ ?_ ?_ d
  · intro c e w opts hcond ih h
    rw [noEndingOpts] at h
    rw [prunedCount, if_pos hcond, nodeCount]
    rw [hcond.1] at h
    simp at h
    rw [ih h]
  · intro c e w opts hcond h
    rw [noEndingOpts] at h
    rw [prunedCount, if_neg hcond, nodeCount]
    by_cases he : e = true
    · rw [he] at h
      simp at h
      rw [h]
      rw [nodeCountList]
    · have he' : e = false := by cases e <;> simp_all
      rw [he'] at h
      simp at h
      have hopts : opts = [] := by
        by_contra hne
        exact hcond ⟨he', by simp [hne]⟩
      subst hopts
      rw [nodeCountList]
  · intro _h
    rw [prunedCountList, nodeCountList]
  · intro t child rest ih1 ih2 h
    rw [noEndingOptsList] at h
    simp at h
    rw [prunedCountList, nodeCountList, ih1 h.1, ih2 h.2]

theorem findNode_append_of_lt (pre post : List NodeRow) (nid : Nat)
    (h : ∀ r ∈ pre, r.id ≠ nid) :
    findNode (pre ++ post) nid = findNode post nid := by
  rw [findNode, findNode, List.find?_append]
  have hnone : pre.find? (fun r => r.id = nid) = none := by
    rw [List.find?_eq_none]
    intro r hr
    simp [h r hr]
  rw [hnone, Option.none_or]

theorem findNode_append_none (pre post : List NodeRow) (nid : Nat)
    (h : ∀ r ∈ post, r.id ≠ nid) :
    findNode (pre ++ post) nid = findNode pre nid := by
  rw [findNode, findNode, List.find?_append]
  have hnone : post.find? (fun r => r.id = nid) = none := by
    rw [List.find?_eq_none]
    intro r hr
    simp [h r hr]
  rw [hnone, Option.or_none]

/-- Reconstructing node `n` from any row store that agrees with the rows
appended for `d` on the id block of `d` yields the pruned description. -/
theorem reload_agrees_rowsOf (sid : Nat) (n : Nat) (root : Bool) (d : StoryNodeLLM)
    (nodes : List NodeRow) (fuel : Nat)
    (hagree : ∀ id, n ≤ id → id < n + prunedCount d →
      findNode nodes id = findNode (rowsOf sid n root d) id)
    (hfuel : prunedCount d ≤ fuel) :
    reload nodes fuel n = some (prune d) := by
  refine rowsOf.induct sid
    (fun n root d => ∀ fuel,
      (∀ id, n ≤ id → id < n + prunedCount d →
        findNode nodes id = findNode (rowsOf sid n root d) id) →
      prunedCount d ≤ fuel →
      reload nodes fuel n = some (prune d))
    (fun n opts => ∀ fuel,
      (∀ id, n ≤ id → id < n + prunedCountList opts →
        findNode nodes id = findNode (rowsOfList sid n opts) id) →
      prunedCountList opts ≤ fuel →
      reloadOpts nodes fuel (optEntries n opts) = some (pruneList opts))
    ?_ ?_ ?_ ?_ n root d fuel hagree hfuel
  · intro n root c e w opts hcond ih fuel hag hf
    rw [prunedCount, if_pos hcond] at hf
    cases fuel with
    | zero => omega
    | succ fl =>
      have hfind : findNode nodes n =
          some ⟨n, sid, c, root, e, w, optEntries (n + 1) opts⟩ := by
        rw [hag n (Nat.le_refl n) (by rw [prunedCount, if_pos hcond]; omega)]
        rw [rowsOf, if_pos hcond, findNode]
        exact List.find?_cons_of_pos _ (by simp)
      have hih : reloadOpts nodes fl (optEntries (n + 1) opts) = some (pruneList opts) := by
        refine ih fl ?_ (by omega)
        intro id hlo hhi
        rw [hag id (by omega) (by rw [prunedCount, if_pos hcond]; omega)]
        rw [rowsOf, if_pos hcond, findNode, findNode]
        exact List.find?_cons_of_neg _ (by simp; omega)
      rw [reload, hfind]
      dsimp only
      rw [hih]
      dsimp only
      rw [prune, if_pos hcond]
  · intro n root c e w opts hcond fuel hag hf
    rw [prunedCount, if_neg hcond] at hf
    cases fuel with
    | zero => omega
    | succ fl =>
      have hfind : findNode nodes n = some ⟨n, sid, c, root, e, w, []⟩ := by
        rw [hag n (Nat.le_refl n) (by rw [prunedCount, if_neg hcond]; omega)]
        rw [rowsOf, if_neg hcond, findNode]
        exact List.find?_cons_of_pos _ (by simp)
      rw [reload, hfind]
      dsimp only
      rw [reloadOpts]
      dsimp only
      rw [prune, if_neg hcond]
  · intro n fuel _hag _hf
    rw [optEntries, reloadOpts, pruneList]
  · intro n t child rest ih1 ih2 fuel hag hf
    rw [prunedCountList] at hf
    have hpc := prunedCount_pos child
    have h1 : reload nodes fuel n = some (prune child) := by
      refine ih1 fuel ?_ (by omega)
      intro id hlo hhi
      rw [hag id hlo (by rw [prunedCountList]; omega)]
      rw [rowsOfList]
      refine findNode_append_none _ _ _ ?_
      intro r hr
      have := rowsOfList_id_range sid rest (n + prunedCount child) r hr
      omega
    have h2 : reloadOpts nodes fuel (optEntries (n + prunedCount child) rest)
        = some (pruneList rest) := by
      refine ih2 fuel ?_ (by omega)
      intro id hlo hhi
      rw [hag id (by omega) (by rw [prunedCountList]; omega)]
      rw [rowsOfList]
      refine findNode_append_of_lt _ _ _ ?_
      intro r hr
      have := rowsOf_id_range sid n false child r hr
      omega
    rw [optEntries, reloadOpts, h1]
    dsimp only
    rw [h2]
    dsimp only
    rw [pruneList]

/-- Exact effect of `generate_story` on a well-formed session: one Story
row with the resolved title, the node rows of the resolved root
description, nothing else. -/
theorem generate_story_spec (validate : List Char → Option StoryLLMResponse)
    (callResult : Except (List Char) (List Char)) (session_id theme : List Char)
    (db : DB) (hwf : NodesWf db) :
    generate_story validate callResult session_id theme db =
      ({ db with
          stories := db.stories ++
            [⟨db.nextStoryId, (resolve_structure validate callResult theme).title, session_id⟩],
          nodes := db.nodes ++
            rowsOf db.nextStoryId db.nextNodeId true (resolve_structure validate callResult theme).rootNode,
          nextStoryId := db.nextStoryId + 1,
          nextNodeId := db.nextNodeId +
            prunedCount (resolve_structure validate callResult theme).rootNode },
       db.nextStoryId) := by
  simp only [generate_story]
  have hwf1 : NodesWf { db with
      stories := db.stories ++
        [⟨db.nextStoryId, (resolve_structure validate callResult theme).title, session_id⟩],
      nextStoryId := db.nextStoryId + 1 } := hwf
  rw [process_story_node_spec _ _ _ _ hwf1]

/-- C5: whenever the network call signals any error, `generate_story`
does not propagate it: it commits and returns a Story titled
`Error: {Theme} Story` (theme capitalized) with exactly one persisted
node whose content contains the error message, with `is_ending = true`,
`is_winning_ending = false` and an empty options list. -/
theorem C5_network_error_fallback (validate : List Char → Option StoryLLMResponse)
    (e session_id theme : List Char) (db : DB) :
    (generate_story validate (Except.error e) session_id theme db).1.stories
      = db.stories ++ [⟨db.nextStoryId,
          ("Error: ").data ++ pyCapitalize theme ++ (" Story").data, session_id⟩]
    ∧ (generate_story validate (Except.error e) session_id theme db).1.nodes
      = db.nodes ++ [⟨db.nextNodeId, db.nextStoryId,
          ("We encountered an error while generating your story: ").data ++ e,
          true, true, false, []⟩]
    ∧ (∃ l r, (("We encountered an error while generating your story: ").data ++ e)
        = l ++ e ++ r)
    ∧ (generate_story validate (Except.error e) session_id theme db).2 = db.nextStoryId := by
  refine ⟨?_, ?_,
    ⟨("We encountered an error while generating your story: ").data, [], by simp⟩, ?_⟩
  all_goals
    simp [generate_story, resolve_structure, _process_story_node]

/-- C4: for every theme and network-call result text that is not valid
JSON and has length greater than 500, `generate_story` commits and
returns a Story titled `{Theme} Story` (theme capitalized) with exactly
one persisted node whose content is exactly the first 500 characters of
the text, with `is_ending = true`, `is_winning_ending = true`, and an
empty options list. -/
theorem C4_decode_failure_fallback (validate : List Char → Option StoryLLMResponse)
    (text session_id theme : List Char) (db : DB)
    (hbad : json_loads_ok text = false) (hlen : 500 < text.length) :
    (generate_story validate (Except.ok text) session_id theme db).1.stories
      = db.stories ++ [⟨db.nextStoryId,
          pyCapitalize theme ++ (" Story").data, session_id⟩]
    ∧ (generate_story validate (Except.ok text) session_id theme db).1.nodes
      = db.nodes ++ [⟨db.nextNodeId, db.nextStoryId, text.take 500, true, true, true, []⟩]
    ∧ (text.take 500).length = 500
    ∧ (generate_story validate (Except.ok text) session_id theme db).2 = db.nextStoryId := by
  refine ⟨?_, ?_, by simp [List.length_take]; omega, ?_⟩
  all_goals
    simp [generate_story, resolve_structure, _process_story_node, hbad]

/-- C6: for every validated StoryTreeDescription whose root is not an
ending and has exactly two options, each child an ending,
`generate_story` persists exactly one root row, two child rows each with
`is_ending = true`, and the root row's options hold the two generated
child ids in input order. -/
theorem C6_two_option_root_persistence (validate : List Char → Option StoryLLMResponse)
    (text session_id theme : List Char) (db : DB) (s : StoryLLMResponse)
    (c : List Char) (w : Bool) (t1 t2 : List Char) (n1 n2 : StoryNodeLLM)
    (hwf : NodesWf db)
    (hloads : json_loads_ok text = true)
    (hval : validate text = some s)
    (hroot : s.rootNode = .mk c false w [(t1, n1), (t2, n2)])
    (h1 : n1.isEnding = true) (h2 : n2.isEnding = true) :
    (generate_story validate (Except.ok text) session_id theme db).1.nodes
      = db.nodes ++
        [⟨db.nextNodeId, db.nextStoryId, c, true, false, w,
            [(t1, db.nextNodeId + 1), (t2, db.nextNodeId + 2)]⟩,
         ⟨db.nextNodeId + 1, db.nextStoryId, n1.content, false, true, n1.isWinningEnding, []⟩,
         ⟨db.nextNodeId + 2, db.nextStoryId, n2.content, false, true, n2.isWinningEnding, []⟩] := by
  obtain ⟨c1, e1, w1, o1⟩ := n1
  obtain ⟨c2, e2, w2, o2⟩ := n2
  simp only [StoryNodeLLM.isEnding] at h1 h2
  subst h1; subst h2
  rw [generate_story_spec _ _ _ _ _ hwf]
  have hres : resolve_structure validate (Except.ok text) theme = s := by
    simp only [resolve_structure, hloads, hval, if_true]
  rw [hres, hroot]
  dsimp only
  rw [rowsOf, if_pos (by simp)]
  rw [rowsOfList, rowsOf, if_neg (by simp)]
  rw [rowsOfList, rowsOf, if_neg (by simp)]
  rw [rowsOfList]
  rw [optEntries, optEntries, optEntries]
  simp [StoryNodeLLM.content, StoryNodeLLM.isWinningEnding, prunedCount]

/-- C9: every `generate_story` call persists exactly one row with
`is_root = true` (the root description's row, created first), and every
row created by a recursive option call has `is_root = false`. -/
theorem C9_exactly_one_root_row (validate : List Char → Option StoryLLMResponse)
    (callResult : Except (List Char) (List Char)) (session_id theme : List Char)
    (db : DB) (hwf : NodesWf db) :
    ∃ r0 tl,
      (generate_story validate callResult session_id theme db).1.nodes.drop db.nodes.length
        = r0 :: tl
      ∧ r0.is_root = true
      ∧ (∀ r ∈ tl, r.is_root = false)
      ∧ (r0 :: tl).countP (fun r => r.is_root) = 1 := by
  have hmain : (generate_story validate callResult session_id theme db).1.nodes.drop
      db.nodes.length
      = rowsOf db.nextStoryId db.nextNodeId true
          (resolve_structure validate callResult theme).rootNode := by
    rw [generate_story_spec _ _ _ _ _ hwf]
    dsimp only
    rw [List.drop_left]
  obtain ⟨tl, heq, htl⟩ := rowsOf_cons_root db.nextStoryId db.nextNodeId true
    (resolve_structure validate callResult theme).rootNode
  rw [heq] at hmain
  refine ⟨_, tl, hmain, rfl, htl, ?_⟩
  · rw [List.countP_cons]
    have h0 : tl.countP (fun r => r.is_root) = 0 := by
      rw [List.countP_eq_zero]
      intro r hr
      simp [htl r hr]
    simp [h0]

/-- C10: a node description with `isEnding = true` is persisted with an
empty options list and none of its described option children are
persisted, even when the description carries options; in general every
persisted row with `is_ending = true` has an empty options list. -/
theorem C10_ending_nodes_drop_options (d : StoryNodeLLM) (sid : Nat) (root : Bool)
    (db : DB) (hwf : NodesWf db) :
    (d.isEnding = true →
      (_process_story_node sid d root db).1.nodes
        = db.nodes ++ [⟨db.nextNodeId, sid, d.content, root, true, d.isWinningEnding, []⟩])
    ∧ (∀ r ∈ (_process_story_node sid d root db).1.nodes.drop db.nodes.length,
        r.is_ending = true → r.options = []) := by
  rw [process_story_node_spec sid d root db hwf]
  dsimp only
  constructor
  · intro he
    obtain ⟨c, e, w, opts⟩ := d
    simp only [StoryNodeLLM.isEnding] at he
    subst he
    rw [rowsOf, if_neg (by simp)]
    simp [StoryNodeLLM.content, StoryNodeLLM.isWinningEnding]
  · rw [List.drop_left]
    exact fun r hr => rowsOf_ending_options_empty sid db.nextNodeId root d r hr

/-- C7 counterexample: an ending root carrying one option child is a
description of 2 nodes, but a single call persists only 1 row — the
persisted row count does not always equal the description's node
count. -/
theorem C7_counterexample_ending_options_skipped :
    nodeCount (StoryNodeLLM.mk ['a'] true true [(['x'], StoryNodeLLM.mk ['b'] false false [])]) = 2
    ∧ (_process_story_node 1
        (StoryNodeLLM.mk ['a'] true true [(['x'], StoryNodeLLM.mk ['b'] false false [])])
        true emptyDB).1.nodes.length = 1 := by
  constructor
  · simp [nodeCount, nodeCountList]
  · rw [process_story_node_spec _ _ _ _ (fun r hr => by simp [emptyDB] at hr)]
    dsimp only
    rw [rowsOf, if_neg (by simp)]
    simp [emptyDB]

/-- C7 (amended): a single call creates each node of the pruned
description (ending nodes' options are skipped, per C10) exactly once:
the appended row count is `prunedCount`, reloading the root id from the
persisted rows rebuilds exactly the pruned description (same depth,
branching, flags and option order — no duplication, no collapsing), and
for descriptions where no ending node carries options the pruned count
is the full node count. -/
theorem C7_single_call_persists_pruned_tree (d : StoryNodeLLM) (sid : Nat) (root : Bool)
    (db : DB) (fuel : Nat) (hwf : NodesWf db) (hfuel : prunedCount d ≤ fuel) :
    (_process_story_node sid d root db).1.nodes.length = db.nodes.length + prunedCount d
    ∧ reload (_process_story_node sid d root db).1.nodes fuel db.nextNodeId = some (prune d)
    ∧ (noEndingOpts d = true → prunedCount d = nodeCount d) := by
  rw [process_story_node_spec sid d root db hwf]
  dsimp only
  refine ⟨by simp [rowsOf_length], ?_, noEndingOpts_pruned_eq_total d⟩
  refine reload_agrees_rowsOf sid db.nextNodeId root d _ fuel ?_ hfuel
  intro id hlo hhi
  exact findNode_append_of_lt _ _ _ (fun r hr => by have := hwf r hr; omega)

set_option maxRecDepth 8192 in
/-- Witness for C4 at a concrete 501-character non-JSON text. -/
theorem C4_decode_failure_fallback_witness :
    json_loads_ok (List.replicate 501 'a') = false
    ∧ 500 < (List.replicate 501 'a').length
    ∧ (generate_story (fun _ => none) (Except.ok (List.replicate 501 'a')) [] [] emptyDB).1.nodes
        = emptyDB.nodes ++ [⟨emptyDB.nextNodeId, emptyDB.nextStoryId,
            (List.replicate 501 'a').take 500, true, true, true, []⟩] :=
  ⟨by decide, by decide,
   (C4_decode_failure_fallback (fun _ => none) (List.replicate 501 'a') [] [] emptyDB
      (by decide) (by decide)).2.1⟩

/-- Witness for C6 at a concrete validated two-option tree. -/
theorem C6_two_option_root_persistence_witness :
    NodesWf emptyDB
    ∧ json_loads_ok ['{', '}'] = true
    ∧ (generate_story
        (fun _ => some ⟨['T'], StoryNodeLLM.mk ['r'] false false
          [(['o'], StoryNodeLLM.mk ['x'] true true []),
           (['p'], StoryNodeLLM.mk ['y'] true false [])]⟩)
        (Except.ok ['{', '}']) [] [] emptyDB).1.nodes
      = emptyDB.nodes ++
        [⟨emptyDB.nextNodeId, emptyDB.nextStoryId, ['r'], true, false, false,
            [(['o'], emptyDB.nextNodeId + 1), (['p'], emptyDB.nextNodeId + 2)]⟩,
         ⟨emptyDB.nextNodeId + 1, emptyDB.nextStoryId,
            (StoryNodeLLM.mk ['x'] true true []).content, false, true,
            (StoryNodeLLM.mk ['x'] true true []).isWinningEnding, []⟩,
         ⟨emptyDB.nextNodeId + 2, emptyDB.nextStoryId,
            (StoryNodeLLM.mk ['y'] true false []).content, false, true,
            (StoryNodeLLM.mk ['y'] true false []).isWinningEnding, []⟩] :=
  ⟨fun r hr => by simp [emptyDB] at hr, by decide,
   C6_two_option_root_persistence
     (fun _ => some ⟨['T'], StoryNodeLLM.mk ['r'] false false
       [(['o'], StoryNodeLLM.mk ['x'] true true []),
        (['p'], StoryNodeLLM.mk ['y'] true false [])]⟩)
     ['{', '}'] [] [] emptyDB _ ['r'] false ['o'] ['p'] _ _
     (fun r hr => by simp [emptyDB] at hr) (by decide) rfl rfl rfl rfl⟩

/-- Witness for C9 at a concrete call on the empty session. -/
theorem C9_exactly_one_root_row_witness :
    NodesWf emptyDB
    ∧ ∃ r0 tl,
        (generate_story (fun _ => none) (Except.error ['e']) [] [] emptyDB).1.nodes.drop
            emptyDB.nodes.length
          = r0 :: tl
        ∧ r0.is_root = true
        ∧ (∀ r ∈ tl, r.is_root = false)
        ∧ (r0 :: tl).countP (fun r => r.is_root) = 1 :=
  ⟨fun r hr => by simp [emptyDB] at hr,
   C9_exactly_one_root_row (fun _ => none) (Except.error ['e']) [] [] emptyDB
     (fun r hr => by simp [emptyDB] at hr)⟩

/-- Witness for C10 at a concrete ending description carrying options. -/
theorem C10_ending_nodes_drop_options_witness :
    NodesWf emptyDB
    ∧ (((StoryNodeLLM.mk ['a'] true true [(['x'], StoryNodeLLM.mk ['b'] false false [])]).isEnding = true →
        (_process_story_node 7
          (StoryNodeLLM.mk ['a'] true true [(['x'], StoryNodeLLM.mk ['b'] false false [])])
          true emptyDB).1.nodes
          = emptyDB.nodes ++ [⟨emptyDB.nextNodeId, 7,
              (StoryNodeLLM.mk ['a'] true true [(['x'], StoryNodeLLM.mk ['b'] false false [])]).content,
              true, true,
              (StoryNodeLLM.mk ['a'] true true [(['x'], StoryNodeLLM.mk ['b'] false false [])]).isWinningEnding,
              []⟩])
      ∧ (∀ r ∈ (_process_story_node 7
            (StoryNodeLLM.mk ['a'] true true [(['x'], StoryNodeLLM.mk ['b'] false false [])])
            true emptyDB).1.nodes.drop emptyDB.nodes.length,
          r.is_ending = true → r.options = [])) :=
  ⟨fun r hr => by simp [emptyDB] at hr,
   C10_ending_nodes_drop_options
     (StoryNodeLLM.mk ['a'] true true [(['x'], StoryNodeLLM.mk ['b'] false false [])])
     7 true emptyDB (fun r hr => by simp [emptyDB] at hr)⟩

/-- Witness for the amended C7 at a concrete two-node description. -/
theorem C7_single_call_persists_pruned_tree_witness :
    NodesWf emptyDB
    ∧ prunedCount (StoryNodeLLM.mk ['r'] false false
        [(['x'], StoryNodeLLM.mk ['a'] true false [])]) ≤ 9
    ∧ reload (_process_story_node 1
          (StoryNodeLLM.mk ['r'] false false [(['x'], StoryNodeLLM.mk ['a'] true false [])])
          true emptyDB).1.nodes 9 emptyDB.nextNodeId
        = some (prune (StoryNodeLLM.mk ['r'] false false
            [(['x'], StoryNodeLLM.mk ['a'] true false [])])) :=
  ⟨fun r hr => by simp [emptyDB] at hr,
   by simp [prunedCount, prunedCountList],
   (C7_single_call_persists_pruned_tree
      (StoryNodeLLM.mk ['r'] false false [(['x'], StoryNodeLLM.mk ['a'] true false [])])
      1 true emptyDB 9 (fun r hr => by simp [emptyDB] at hr)
      (by simp [prunedCount, prunedCountList])).2.1⟩

/-- C2 counterexample: on a 2xx payload with neither a usable candidate
nor an error object (here the empty object), the call RETURNS the
generic string as a text value — it does not raise. -/
theorem C2_counterexample_generic_text_returned :
    handle_gemini_response ⟨none, none⟩
      = Except.ok (("No valid response from Gemini API").data) := by
  rfl

/-- C2 (amended): when the usable-candidate checks fail without raising
(candidates absent or empty, or the first candidate's content has absent
or empty parts) and no error object is present, `_call_gemini_api`
returns the literal text `No valid response from Gemini API` as its
result instead of raising an `ApiError`. -/
theorem C2_no_candidate_no_error_returns_generic (rj : GeminiResponse)
    (hcand : rj.candidates = none ∨ rj.candidates = some []
      ∨ ∃ c0 tl content, rj.candidates = some (c0 :: tl) ∧ c0.content = some content
          ∧ (content.parts = none ∨ content.parts = some []))
    (herr : rj.error = none) :
    handle_gemini_response rj = Except.ok (("No valid response from Gemini API").data) := by
  rcases hcand with h | h | ⟨c0, tl, content, hc, hcont, hp⟩
  · simp [handle_gemini_response, gemini_error_check, h, herr]
  · simp [handle_gemini_response, gemini_error_check, h, herr]
  · rcases hp with hp | hp <;>
      simp [handle_gemini_response, gemini_error_check, hc, hcont, hp, herr]

/-- Witness for the amended C2 at a concrete empty-candidates payload. -/
theorem C2_no_candidate_no_error_returns_generic_witness :
    ((⟨some [], none⟩ : GeminiResponse).candidates = none
      ∨ (⟨some [], none⟩ : GeminiResponse).candidates = some []
      ∨ ∃ c0 tl content, (⟨some [], none⟩ : GeminiResponse).candidates = some (c0 :: tl)
          ∧ c0.content = some content ∧ (content.parts = none ∨ content.parts = some []))
    ∧ (⟨some [], none⟩ : GeminiResponse).error = none
    ∧ handle_gemini_response ⟨some [], none⟩
        = Except.ok (("No valid response from Gemini API").data) :=
  ⟨Or.inr (Or.inl rfl), rfl,
   C2_no_candidate_no_error_returns_generic ⟨some [], none⟩ (Or.inr (Or.inl rfl)) rfl⟩

/-- C3 counterexample: on `a{]}b` the scan finds the balanced candidate
`{]}`, `json.loads` fails on it, and `_extract_json` returns the whole
original text normally — the parse error is not propagated. -/
theorem C3_counterexample_parse_error_swallowed :
    scanGo 0 false false [] ['{', ']', '}', 'b'] = some ['{', ']', '}']
    ∧ json_loads_ok ['{', ']', '}'] = false
    ∧ _extract_json ['a', '{', ']', '}', 'b'] = ['a', '{', ']', '}', 'b'] :=
  ⟨by decide, by decide, by decide⟩

/-- C3 (amended): when the scan locates a balanced candidate that is not
valid JSON, the `json.loads` exception is caught by the enclosing
`try/except` and `_extract_json` returns the original text unchanged — a
normal return, not a propagated parse error. -/
theorem C3_parse_failure_returns_original_text (text : List Char) (start_idx : Nat)
    (cand : List Char)
    (hfind : text.findIdx? (fun c => c = '{') = some start_idx)
    (hscan : scanGo 0 false false [] (text.drop start_idx) = some cand)
    (hbad : json_loads_ok cand = false) :
    _extract_json text = text := by
  simp [_extract_json, hfind, hscan, hbad]

/-- Witness for the amended C3 at the concrete text `{x}`. -/
theorem C3_parse_failure_returns_original_text_witness :
    ['{', 'x', '}'].findIdx? (fun c => c = '{') = some 0
    ∧ scanGo 0 false false [] (['{', 'x', '}'].drop 0) = some ['{', 'x', '}']
    ∧ json_loads_ok ['{', 'x', '}'] = false
    ∧ _extract_json ['{', 'x', '}'] = ['{', 'x', '}'] :=
  ⟨by decide, by decide, by decide,
   C3_parse_failure_returns_original_text ['{', 'x', '}'] 0 ['{', 'x', '}']
     (by decide) (by decide) (by decide)⟩

/-- C8: when the text has no `{` at all, or has a first `{` whose scan
finds no matching close brace, `_extract_json` returns the original text
unchanged (and, being total, does not raise). -/
theorem C8_no_balanced_object_returns_text (text : List Char)
    (h : text.findIdx? (fun c => c = '{') = none
      ∨ ∃ s, text.findIdx? (fun c => c = '{') = some s
          ∧ scanGo 0 false false [] (text.drop s) = none) :
    _extract_json text = text := by
  rcases h with h | ⟨s, hs, hscan⟩
  · simp [_extract_json, h]
  · simp [_extract_json, hs, hscan]

/-- Witness for C8 at the concrete unbalanced text `a{b`. -/
theorem C8_no_balanced_object_returns_text_witness :
    (['a', '{', 'b'].findIdx? (fun c => c = '{') = none
      ∨ ∃ s, ['a', '{', 'b'].findIdx? (fun c => c = '{') = some s
          ∧ scanGo 0 false false [] (['a', '{', 'b'].drop s) = none)
    ∧ _extract_json ['a', '{', 'b'] = ['a', '{', 'b'] :=
  ⟨Or.inr ⟨1, by decide, by decide⟩,
   C8_no_balanced_object_returns_text ['a', '{', 'b'] (Or.inr ⟨1, by decide, by decide⟩)⟩

/-! ### Lemmas: the brace scan on well-formed JSON segments -/

theorem scanGo_plain_step (c : Char) (hc : scanPlain c = true) (d : Int) (acc rest : List Char)
    (hd : ¬(d = 0)) :
    scanGo d false false acc (c :: rest) = scanGo d false false (c :: acc) rest := by
  have h1 : ¬(c = '\\') := fun h => by subst h; simp [scanPlain] at hc
  have h2 : ¬(c = '"') := fun h => by subst h; simp [scanPlain] at hc
  have h3 : ¬(c = '{') := fun h => by subst h; simp [scanPlain] at hc
  have h4 : ¬(c = '}') := fun h => by subst h; simp [scanPlain] at hc
  simp [scanGo, h1, h2, h3, h4, hd]

theorem scanGo_open_step (d : Int) (acc rest : List Char) (hd : ¬(d + 1 = 0)) :
    scanGo d false false acc ('{' :: rest) = scanGo (d + 1) false false ('{' :: acc) rest := by
  simp [scanGo, hd]

theorem scanGo_close_step (d : Int) (acc rest : List Char) (hd : ¬(d - 1 = 0)) :
    scanGo d false false acc ('}' :: rest) = scanGo (d - 1) false false ('}' :: acc) rest := by
  simp [scanGo, hd]

theorem scanGo_quote_open_step (d : Int) (acc rest : List Char) :
    scanGo d false false acc ('"' :: rest) = scanGo d true false ('"' :: acc) rest := by
  simp [scanGo]

theorem scanGo_quote_close_step (d : Int) (acc rest : List Char) (hd : ¬(d = 0)) :
    scanGo d true false acc ('"' :: rest) = scanGo d false false ('"' :: acc) rest := by
  simp [scanGo, hd]

theorem scanGo_instring_step (c : Char) (h1 : ¬(c = '"')) (h2 : ¬(c = '\\'))
    (d : Int) (acc rest : List Char) :
    scanGo d true false acc (c :: rest) = scanGo d true false (c :: acc) rest := by
  simp [scanGo, h1, h2]

theorem scanGo_escape_pair_step (e : Char) (d : Int) (acc rest : List Char) :
    scanGo d true false acc ('\\' :: e :: rest) = scanGo d true false (e :: '\\' :: acc) rest := by
  rw [scanGo, if_pos ⟨rfl, rfl⟩, scanGo, if_neg (by simp)]
  simp

theorem ScanPass_nil : ScanPass [] := by
  intro d acc rest hd
  simp

theorem ScanPass_append (a b : List Char) (ha : ScanPass a) (hb : ScanPass b) :
    ScanPass (a ++ b) := by
  intro d acc rest hd
  rw [List.append_assoc, ha d acc (b ++ rest) hd, hb d _ rest hd]
  simp [List.reverse_append, List.append_assoc]

theorem ScanPass_all_plain (seg : List Char) (h : seg.all scanPlain = true) : ScanPass seg := by
  induction seg with
  | nil => exact ScanPass_nil
  | cons c t ih =>
    intro d acc rest hd
    simp only [List.all_cons, Bool.and_eq_true] at h
    rw [List.cons_append, scanGo_plain_step c h.1 d acc _ (by omega)]
    rw [ih h.2 d (c :: acc) rest hd]
    simp

theorem scanPlain_of_ws (c : Char) (h : isJsonWs c = true) : scanPlain c = true := by
  rw [isJsonWs] at h
  simp only [Bool.or_eq_true, decide_eq_true_eq] at h
  rcases h with ((h | h) | h) | h <;> subst h <;> decide

theorem scanPlain_of_digit (c : Char) (h : c.isDigit = true) : scanPlain c = true := by
  have h1 : ¬(c = '\\') := fun he => by subst he; exact absurd h (by decide)
  have h2 : ¬(c = '"') := fun he => by subst he; exact absurd h (by decide)
  have h3 : ¬(c = '{') := fun he => by subst he; exact absurd h (by decide)
  have h4 : ¬(c = '}') := fun he => by subst he; exact absurd h (by decide)
  simp [scanPlain, h1, h2, h3, h4]

theorem takeWhile_ws_all_plain (s : List Char) :
    (s.takeWhile isJsonWs).all scanPlain = true := by
  rw [List.all_eq_true]
  intro c hc
  exact scanPlain_of_ws c (List.mem_takeWhile_imp hc)

theorem takeWhile_digit_all_plain (s : List Char) :
    (s.takeWhile Char.isDigit).all scanPlain = true := by
  rw [List.all_eq_true]
  intro c hc
  exact scanPlain_of_digit c (List.mem_takeWhile_imp hc)

theorem ScanPass_ws_cluster (s : List Char) : ScanPass (s.takeWhile isJsonWs) :=
  ScanPass_all_plain _ (takeWhile_ws_all_plain s)

theorem isHexDig_ne (c : Char) (h : isHexDig c = true) : ¬(c = '"') ∧ ¬(c = '\\') :=
  ⟨fun he => by subst he; exact absurd h (by decide),
   fun he => by subst he; exact absurd h (by decide)⟩

theorem parseStringBody_zero (s : List Char) : parseStringBody 0 s = none := rfl

theorem parseStringBody_succ (f : Nat) (s : List Char) :
    parseStringBody (f + 1) s =
      (match s with
       | [] => none
       | c :: r =>
         if c = '"' then some r
         else if c = '\\' then
           match r with
           | [] => none
           | e :: r2 =>
             if isSimpleEscape e then parseStringBody f r2
             else if e = 'u' then
               match r2 with
               | h1 :: h2 :: h3 :: h4 :: r3 =>
                 if isHexDig h1 && isHexDig h2 && isHexDig h3 && isHexDig h4 then
                   parseStringBody f r3
                 else none
               | _ => none
             else none
         else if 0x20 ≤ c.toNat then parseStringBody f r else none) := rfl

theorem parseStringBody_pass : ∀ (f : Nat) (s r : List Char),
    parseStringBody f s = some r → ∃ seg, s = seg ++ r ∧ StringBodyPass seg := by
  intro f
  induction f with
  | zero =>
    intro s r h
    rw [parseStringBody_zero] at h
    simp at h
  | succ f ih =>
    intro s r h
    cases s with
    | nil => rw [parseStringBody_succ] at h; simp at h
    | cons c t =>
      rw [parseStringBody_succ] at h
      dsimp only at h
      by_cases hq : c = '"'
      · rw [if_pos hq] at h
        injection h with h
        subst h; subst hq
        refine ⟨['"'], rfl, ?_⟩
        intro d acc rest hd
        rw [List.cons_append, List.nil_append, scanGo_quote_close_step d acc rest (by omega)]
        simp
      · rw [if_neg hq] at h
        by_cases hb : c = '\\'
        · rw [if_pos hb] at h
          cases t with
          | nil => simp at h
          | cons e r2 =>
            dsimp only at h
            by_cases hesc : isSimpleEscape e = true
            · rw [if_pos hesc] at h
              obtain ⟨seg2, hseq, hpass⟩ := ih r2 r h
              subst hb
              refine ⟨'\\' :: e :: seg2, by simp [hseq], ?_⟩
              intro d acc rest hd
              rw [List.cons_append, List.cons_append, scanGo_escape_pair_step e d acc _]
              rw [hpass d (e :: '\\' :: acc) rest hd]
              simp
            · rw [if_neg hesc] at h
              by_cases hu : e = 'u'
              · rw [if_pos hu] at h
                match r2 with
                | [] => simp at h
                | [x] => simp at h
                | [x, y] => simp at h
                | [x, y, z] => simp at h
                | x :: y :: z :: w :: r3 =>
                  dsimp only at h
                  by_cases hhex : (isHexDig x && isHexDig y && isHexDig z && isHexDig w) = true
                  · rw [if_pos hhex] at h
                    obtain ⟨seg2, hseq, hpass⟩ := ih r3 r h
                    subst hb; subst hu
                    simp only [Bool.and_eq_true] at hhex
                    obtain ⟨hne1a, hne1b⟩ := isHexDig_ne x hhex.1.1.1
                    obtain ⟨hne2a, hne2b⟩ := isHexDig_ne y hhex.1.1.2
                    obtain ⟨hne3a, hne3b⟩ := isHexDig_ne z hhex.1.2
                    obtain ⟨hne4a, hne4b⟩ := isHexDig_ne w hhex.2
                    refine ⟨'\\' :: 'u' :: x :: y :: z :: w :: seg2, by simp [hseq], ?_⟩
                    intro d acc rest hd
                    rw [List.cons_append, List.cons_append, scanGo_escape_pair_step 'u' d acc _]
                    rw [List.cons_append, scanGo_instring_step x hne1a hne1b]
                    rw [List.cons_append, scanGo_instring_step y hne2a hne2b]
                    rw [List.cons_append, scanGo_instring_step z hne3a hne3b]
                    rw [List.cons_append, scanGo_instring_step w hne4a hne4b]
                    rw [hpass d _ rest hd]
                    simp
                  · rw [if_neg hhex] at h
                    simp at h
              · rw [if_neg hu] at h
                simp at h
        · rw [if_neg hb] at h
          by_cases hctrl : 0x20 ≤ c.toNat
          · rw [if_pos hctrl] at h
            obtain ⟨seg2, hseq, hpass⟩ := ih t r h
            refine ⟨c :: seg2, by simp [hseq], ?_⟩
            intro d acc rest hd
            rw [List.cons_append, scanGo_instring_step c hq hb]
            rw [hpass d (c :: acc) rest hd]
            simp
          · rw [if_neg hctrl] at h
            simp at h

theorem dropLit_eq (lit : List Char) : ∀ (s r : List Char), dropLit lit s = some r → s = lit ++ r := by
  induction lit with
  | nil =>
    intro s r h
    rw [dropLit] at h
    simp only [Option.some.injEq] at h
    simp [h]
  | cons l ls ih =>
    intro s r h
    cases s with
    | nil => rw [dropLit] at h; simp at h
    | cons c t =>
      rw [dropLit] at h
      by_cases hc : c = l
      · rw [if_pos hc] at h
        subst hc
        simp [ih t r h]
      · rw [if_neg hc] at h
        simp at h

theorem parseExpTail_pass (s r : List Char) (h : parseExpTail s = some r) :
    ∃ seg, s = seg ++ r ∧ seg.all scanPlain = true := by
  rw [parseExpTail.eq_def] at h
  cases s with
  | nil => simp at h
  | cons c t =>
    dsimp only at h
    by_cases hsign : (c = '+' || c = '-') = true
    · rw [if_pos hsign] at h
      by_cases hemp : (t.takeWhile Char.isDigit).isEmpty = true
      · rw [if_pos hemp] at h; simp at h
      · rw [if_neg hemp] at h
        simp only [Option.some.injEq] at h
        subst h
        have hsplit : t.takeWhile Char.isDigit ++ t.dropWhile Char.isDigit = t :=
          List.takeWhile_append_dropWhile Char.isDigit t
        refine ⟨c :: t.takeWhile Char.isDigit, by simp [hsplit], ?_⟩
        simp only [List.all_cons, Bool.and_eq_true]
        refine ⟨?_, takeWhile_digit_all_plain t⟩
        simp only [Bool.or_eq_true, decide_eq_true_eq] at hsign
        rcases hsign with hs | hs <;> subst hs <;> decide
    · rw [if_neg hsign] at h
      by_cases hemp : ((c :: t).takeWhile Char.isDigit).isEmpty = true
      · rw [if_pos hemp] at h; simp at h
      · rw [if_neg hemp] at h
        simp only [Option.some.injEq] at h
        subst h
        have hsplit : (c :: t).takeWhile Char.isDigit ++ (c :: t).dropWhile Char.isDigit
            = c :: t := List.takeWhile_append_dropWhile Char.isDigit (c :: t)
        exact ⟨(c :: t).takeWhile Char.isDigit, hsplit.symm, takeWhile_digit_all_plain _⟩

theorem parseFracExp_after_pass (s2 r : List Char)
    (h : (match s2 with
          | c2 :: r2 => if c2 = 'e' || c2 = 'E' then parseExpTail r2 else some s2
          | [] => some s2) = some r) :
    ∃ seg, s2 = seg ++ r ∧ seg.all scanPlain = true := by
  cases s2 with
  | nil =>
    dsimp only at h
    simp only [Option.some.injEq] at h
    exact ⟨[], by simp [h], rfl⟩
  | cons c2 r2 =>
    dsimp only at h
    by_cases he : (c2 = 'e' || c2 = 'E') = true
    · rw [if_pos he] at h
      obtain ⟨seg3, hseq, hp3⟩ := parseExpTail_pass r2 r h
      refine ⟨c2 :: seg3, by simp [hseq], ?_⟩
      simp only [List.all_cons, Bool.and_eq_true]
      refine ⟨?_, hp3⟩
      simp only [Bool.or_eq_true, decide_eq_true_eq] at he
      rcases he with hs | hs <;> subst hs <;> decide
    · rw [if_neg he] at h
      simp only [Option.some.injEq] at h
      exact ⟨[], by simp [h], rfl⟩

theorem parseFracExp_pass (s r : List Char) (h : parseFracExp s = some r) :
    ∃ seg, s = seg ++ r ∧ seg.all scanPlain = true := by
  rw [parseFracExp.eq_def] at h
  cases s with
  | nil =>
    dsimp only at h
    simp only [Option.some.injEq] at h
    exact ⟨[], by simp [h], rfl⟩
  | cons c t =>
    dsimp only at h
    by_cases hdot : c = '.'
    · rw [if_pos hdot] at h
      by_cases hemp : (t.takeWhile Char.isDigit).isEmpty = true
      · rw [if_pos hemp] at h
        simp at h
      · rw [if_neg hemp] at h
        dsimp only at h
        have hsplit : t.takeWhile Char.isDigit ++ t.dropWhile Char.isDigit = t :=
          List.takeWhile_append_dropWhile Char.isDigit t
        obtain ⟨seg2, hseq, hp2⟩ := parseFracExp_after_pass (t.dropWhile Char.isDigit) r h
        refine ⟨c :: (t.takeWhile Char.isDigit ++ seg2), ?_, ?_⟩
        · simp only [List.cons_append, List.append_assoc, ← hseq]
          rw [hsplit]
        · subst hdot
          simp only [List.all_cons, List.all_append, Bool.and_eq_true]
          exact ⟨by decide, takeWhile_digit_all_plain t, hp2⟩
    · rw [if_neg hdot] at h
      dsimp only at h
      exact parseFracExp_after_pass (c :: t) r h

theorem parseNumber_tail_pass (s1 r : List Char)
    (h : (match s1 with
          | [] => none
          | c :: t =>
            if c = '0' then parseFracExp t
            else if c.isDigit then parseFracExp (t.dropWhile Char.isDigit)
            else none) = some r) :
    ∃ seg, s1 = seg ++ r ∧ seg.all scanPlain = true := by
  cases s1 with
  | nil => simp at h
  | cons c t =>
    dsimp only at h
    by_cases h0 : c = '0'
    · rw [if_pos h0] at h
      obtain ⟨seg2, hseq, hp2⟩ := parseFracExp_pass t r h
      refine ⟨c :: seg2, by simp [hseq], ?_⟩
      subst h0
      simp only [List.all_cons, Bool.and_eq_true]
      exact ⟨by decide, hp2⟩
    · rw [if_neg h0] at h
      by_cases hdig : c.isDigit = true
      · rw [if_pos hdig] at h
        obtain ⟨seg2, hseq, hp2⟩ := parseFracExp_pass (t.dropWhile Char.isDigit) r h
        have hsplit : t.takeWhile Char.isDigit ++ t.dropWhile Char.isDigit = t :=
          List.takeWhile_append_dropWhile Char.isDigit t
        refine ⟨c :: (t.takeWhile Char.isDigit ++ seg2), ?_, ?_⟩
        · simp only [List.cons_append, List.append_assoc, ← hseq]
          rw [hsplit]
        · simp only [List.all_cons, List.all_append, Bool.and_eq_true]
          exact ⟨scanPlain_of_digit c hdig, takeWhile_digit_all_plain t, hp2⟩
      · rw [if_neg hdig] at h
        simp at h

theorem parseNumber_pass (s r : List Char) (h : parseNumber s = some r) :
    ∃ seg, s = seg ++ r ∧ seg.all scanPlain = true := by
  rw [parseNumber.eq_def] at h
  cases s with
  | nil => simp at h
  | cons c t =>
    dsimp only at h
    by_cases hneg : c = '-'
    · rw [if_pos hneg] at h
      obtain ⟨seg2, hseq, hp2⟩ := parseNumber_tail_pass t r h
      refine ⟨c :: seg2, by simp [hseq], ?_⟩
      subst hneg
      simp only [List.all_cons, Bool.and_eq_true]
      exact ⟨by decide, hp2⟩
    · rw [if_neg hneg] at h
      exact parseNumber_tail_pass (c :: t) r h

theorem parseValue_zero (s : List Char) : parseValue 0 s = none := rfl

theorem parseValue_succ (f : Nat) (s : List Char) :
    parseValue (f + 1) s =
      (match s with
       | [] => none
       | c :: r =>
         if c = '{' then parseObjectRest f (skipWs r)
         else if c = '[' then parseArrayRest f (skipWs r)
         else if c = '"' then parseStringBody f r
         else if c = 't' then dropLit ['r', 'u', 'e'] r
         else if c = 'f' then dropLit ['a', 'l', 's', 'e'] r
         else if c = 'n' then dropLit ['u', 'l', 'l'] r
         else if c = 'N' then dropLit ['a', 'N'] r
         else if c = 'I' then dropLit ['n', 'f', 'i', 'n', 'i', 't', 'y'] r
         else if c = '-' then
           match r with
           | c2 :: r2 => if c2 = 'I' then dropLit ['n', 'f', 'i', 'n', 'i', 't', 'y'] r2
                         else parseNumber (c :: r)
           | [] => parseNumber (c :: r)
         else parseNumber (c :: r)) := by
  cases s with
  | nil => rfl
  | cons c r => rfl

theorem parseObjectRest_succ (f : Nat) (s : List Char) :
    parseObjectRest (f + 1) s =
      (match s with
       | [] => none
       | c :: r =>
         if c = '}' then some r
         else parseMembers f (c :: r)) := by
  cases s with
  | nil => rfl
  | cons c r => rfl

theorem parseMembers_succ (f : Nat) (s : List Char) :
    parseMembers (f + 1) s =
      (match s with
       | [] => none
       | c :: r =>
         if c = '"' then
           match parseStringBody f r with
           | none => none
           | some s1 =>
             match skipWs s1 with
             | [] => none
             | c2 :: s2 =>
               if c2 = ':' then
                 match parseValue f (skipWs s2) with
                 | none => none
                 | some s3 =>
                   match skipWs s3 with
                   | [] => none
                   | c3 :: s4 =>
                     if c3 = ',' then parseMembers f (skipWs s4)
                     else if c3 = '}' then some s4
                     else none
               else none
         else none) := by
  cases s with
  | nil => rfl
  | cons c r => rfl

theorem parseArrayRest_succ (f : Nat) (s : List Char) :
    parseArrayRest (f + 1) s =
      (match s with
       | [] => none
       | c :: r =>
         if c = ']' then some r
         else parseElements f (c :: r)) := by
  cases s with
  | nil => rfl
  | cons c r => rfl

theorem parseElements_succ (f : Nat) (s : List Char) :
    parseElements (f + 1) s =
      (match parseValue f (skipWs s) with
       | none => none
       | some s1 =>
         match skipWs s1 with
         | [] => none
         | c :: s2 =>
           if c = ',' then parseElements f (skipWs s2)
           else if c = ']' then some s2
           else none) := rfl

theorem parseObjectRest_zero (s : List Char) : parseObjectRest 0 s = none := rfl

theorem parseMembers_zero (s : List Char) : parseMembers 0 s = none := rfl

theorem parseArrayRest_zero (s : List Char) : parseArrayRest 0 s = none := rfl

theorem parseElements_zero (s : List Char) : parseElements 0 s = none := rfl

theorem ScanPass_single (c : Char) (hc : scanPlain c = true) : ScanPass [c] :=
  ScanPass_all_plain [c] (by simp [hc])

theorem ScanPass_quote_string (bseg : List Char) (hpass : StringBodyPass bseg) :
    ScanPass ('"' :: bseg) := by
  intro d acc rest hd
  rw [List.cons_append, scanGo_quote_open_step d acc _]
  rw [hpass d ('"' :: acc) rest hd]
  simp

theorem ScanPass_object (wsSeg seg2 : List Char)
    (hws : wsSeg.all scanPlain = true) (h2 : ScanPass seg2) :
    ScanPass ('{' :: (wsSeg ++ (seg2 ++ ['}']))) := by
  intro d acc rest hd
  rw [List.cons_append]
  rw [scanGo_open_step d acc _ (by omega)]
  rw [List.append_assoc]
  rw [ScanPass_all_plain wsSeg hws (d + 1) ('{' :: acc) _ (by omega)]
  rw [List.append_assoc]
  rw [h2 (d + 1) _ _ (by omega)]
  rw [List.singleton_append]
  rw [scanGo_close_step (d + 1) _ rest (by omega)]
  rw [show d + 1 - 1 = d from by omega]
  simp [List.reverse_append, List.append_assoc]

theorem ws_split (u : List Char) : u.takeWhile isJsonWs ++ skipWs u = u := by
  rw [skipWs]
  exact List.takeWhile_append_dropWhile isJsonWs u

/-- The scan loop passes transparently (at positive depth, outside
strings) over every segment the JSON grammar consumes; for object
grammars the closing brace is exposed to the caller. -/
theorem parse_pass_all : ∀ f : Nat,
    (∀ s r, parseValue f s = some r → ∃ seg, s = seg ++ r ∧ ScanPass seg)
    ∧ (∀ s r, parseObjectRest f s = some r → ∃ seg, s = seg ++ '}' :: r ∧ ScanPass seg)
    ∧ (∀ s r, parseMembers f s = some r → ∃ seg, s = seg ++ '}' :: r ∧ ScanPass seg)
    ∧ (∀ s r, parseArrayRest f s = some r → ∃ seg, s = seg ++ r ∧ ScanPass seg)
    ∧ (∀ s r, parseElements f s = some r → ∃ seg, s = seg ++ r ∧ ScanPass seg) := by
  intro f
  induction f with
  | zero =>
    refine ⟨fun s r h => ?_, fun s r h => ?_, fun s r h => ?_, fun s r h => ?_,
      fun s r h => ?_⟩
    · rw [parseValue_zero] at h; simp at h
    · rw [parseObjectRest_zero] at h; simp at h
    · rw [parseMembers_zero] at h; simp at h
    · rw [parseArrayRest_zero] at h; simp at h
    · rw [parseElements_zero] at h; simp at h
  | succ f ih =>
    obtain ⟨ihv, iho, ihm, iha, ihe⟩ := ih
    refine ⟨fun s r h => ?_, fun s r h => ?_, fun s r h => ?_, fun s r h => ?_,
      fun s r h => ?_⟩
    · -- parseValue
      rw [parseValue_succ] at h
      cases s with
      | nil => simp at h
      | cons c t =>
        dsimp only at h
        by_cases hc1 : c = '{'
        · rw [if_pos hc1] at h
          obtain ⟨seg2, hsp, hp2⟩ := iho (skipWs t) r h
          subst hc1
          refine ⟨'{' :: (t.takeWhile isJsonWs ++ (seg2 ++ ['}'])), ?_,
            ScanPass_object _ _ (takeWhile_ws_all_plain t) hp2⟩
          rw [List.cons_append]
          congr 1
          rw [List.append_assoc, List.append_assoc, List.singleton_append]
          rw [← hsp]
          exact (ws_split t).symm
        · rw [if_neg hc1] at h
          by_cases hc2 : c = '['
          · rw [if_pos hc2] at h
            obtain ⟨segA, hsp, hpA⟩ := iha (skipWs t) r h
            subst hc2
            refine ⟨'[' :: (t.takeWhile isJsonWs ++ segA), ?_, ?_⟩
            · rw [List.cons_append]
              congr 1
              rw [List.append_assoc, ← hsp]
              exact (ws_split t).symm
            · have hp : ScanPass (['['] ++ (t.takeWhile isJsonWs ++ segA)) :=
                ScanPass_append _ _ (ScanPass_single '[' (by decide))
                  (ScanPass_append _ _ (ScanPass_ws_cluster t) hpA)
              simpa using hp
          · rw [if_neg hc2] at h
            by_cases hc3 : c = '"'
            · rw [if_pos hc3] at h
              obtain ⟨bseg, hsp, hbp⟩ := parseStringBody_pass f t r h
              subst hc3
              exact ⟨'"' :: bseg, by simp [hsp], ScanPass_quote_string bseg hbp⟩
            · rw [if_neg hc3] at h
              by_cases hc4 : c = 't'
              · rw [if_pos hc4] at h
                have hdl := dropLit_eq _ _ _ h
                subst hc4
                exact ⟨['t', 'r', 'u', 'e'], by simp [hdl], ScanPass_all_plain _ (by decide)⟩
              · rw [if_neg hc4] at h
                by_cases hc5 : c = 'f'
                · rw [if_pos hc5] at h
                  have hdl := dropLit_eq _ _ _ h
                  subst hc5
                  exact ⟨['f', 'a', 'l', 's', 'e'], by simp [hdl],
                    ScanPass_all_plain _ (by decide)⟩
                · rw [if_neg hc5] at h
                  by_cases hc6 : c = 'n'
                  · rw [if_pos hc6] at h
                    have hdl := dropLit_eq _ _ _ h
                    subst hc6
                    exact ⟨['n', 'u', 'l', 'l'], by simp [hdl],
                      ScanPass_all_plain _ (by decide)⟩
                  · rw [if_neg hc6] at h
                    by_cases hc7 : c = 'N'
                    · rw [if_pos hc7] at h
                      have hdl := dropLit_eq _ _ _ h
                      subst hc7
                      exact ⟨['N', 'a', 'N'], by simp [hdl],
                        ScanPass_all_plain _ (by decide)⟩
                    · rw [if_neg hc7] at h
                      by_cases hc8 : c = 'I'
                      · rw [if_pos hc8] at h
                        have hdl := dropLit_eq _ _ _ h
                        subst hc8
                        exact ⟨['I', 'n', 'f', 'i', 'n', 'i', 't', 'y'], by simp [hdl],
                          ScanPass_all_plain _ (by decide)⟩
                      · rw [if_neg hc8] at h
                        by_cases hc9 : c = '-'
                        · rw [if_pos hc9] at h
                          cases t with
                          | nil =>
                            dsimp only at h
                            obtain ⟨seg, hseq, hpl⟩ := parseNumber_pass _ r h
                            exact ⟨seg, hseq, ScanPass_all_plain seg hpl⟩
                          | cons c2 r2 =>
                            dsimp only at h
                            by_cases hcI : c2 = 'I'
                            · rw [if_pos hcI] at h
                              have hdl := dropLit_eq _ _ _ h
                              subst hc9; subst hcI
                              exact ⟨['-', 'I', 'n', 'f', 'i', 'n', 'i', 't', 'y'],
                                by simp [hdl], ScanPass_all_plain _ (by decide)⟩
                            · rw [if_neg hcI] at h
                              obtain ⟨seg, hseq, hpl⟩ := parseNumber_pass _ r h
                              exact ⟨seg, hseq, ScanPass_all_plain seg hpl⟩
                        · rw [if_neg hc9] at h
                          obtain ⟨seg, hseq, hpl⟩ := parseNumber_pass _ r h
                          exact ⟨seg, hseq, ScanPass_all_plain seg hpl⟩
    · -- parseObjectRest
      rw [parseObjectRest_succ] at h
      cases s with
      | nil => simp at h
      | cons c t =>
        dsimp only at h
        by_cases hc : c = '}'
        · rw [if_pos hc] at h
          simp only [Option.some.injEq] at h
          subst hc; subst h
          exact ⟨[], rfl, ScanPass_nil⟩
        · rw [if_neg hc] at h
          exact ihm (c :: t) r h
    · -- parseMembers
      rw [parseMembers_succ] at h
      cases s with
      | nil => simp at h
      | cons c t =>
        dsimp only at h
        by_cases hq : c = '"'
        · rw [if_pos hq] at h
          cases hsb : parseStringBody f t with
          | none => rw [hsb] at h; simp at h
          | some s1 =>
            rw [hsb] at h
            dsimp only at h
            obtain ⟨bseg, hbs, hbp⟩ := parseStringBody_pass f t s1 hsb
            cases hw1 : skipWs s1 with
            | nil => rw [hw1] at h; simp at h
            | cons c2 s2 =>
              rw [hw1] at h
              dsimp only at h
              by_cases hcolon : c2 = ':'
              · rw [if_pos hcolon] at h
                cases hv : parseValue f (skipWs s2) with
                | none => rw [hv] at h; simp at h
                | some s3 =>
                  rw [hv] at h
                  dsimp only at h
                  obtain ⟨vseg, hvs, hvp⟩ := ihv (skipWs s2) s3 hv
                  cases hw3 : skipWs s3 with
                  | nil => rw [hw3] at h; simp at h
                  | cons c3 s4 =>
                    rw [hw3] at h
                    dsimp only at h
                    by_cases hcomma : c3 = ','
                    · rw [if_pos hcomma] at h
                      obtain ⟨mseg, hms, hmp⟩ := ihm (skipWs s4) r h
                      subst hq; subst hcolon; subst hcomma
                      refine ⟨('"' :: bseg) ++ (s1.takeWhile isJsonWs ++ ([':'] ++
                        (s2.takeWhile isJsonWs ++ (vseg ++ (s3.takeWhile isJsonWs ++
                        ([','] ++ (s4.takeWhile isJsonWs ++ mseg))))))), ?_, ?_⟩
                      · conv_lhs => rw [hbs]
                        conv_lhs =>
                          rw [show s1 = s1.takeWhile isJsonWs ++ (':' :: s2) from by
                            conv_lhs => rw [← ws_split s1]
                            rw [hw1]]
                        conv_lhs =>
                          rw [show s2 = s2.takeWhile isJsonWs ++ skipWs s2 from
                            (ws_split s2).symm]
                        conv_lhs => rw [hvs]
                        conv_lhs =>
                          rw [show s3 = s3.takeWhile isJsonWs ++ (',' :: s4) from by
                            conv_lhs => rw [← ws_split s3]
                            rw [hw3]]
                        conv_lhs =>
                          rw [show s4 = s4.takeWhile isJsonWs ++ skipWs s4 from
                            (ws_split s4).symm]
                        conv_lhs => rw [hms]
                        simp only [List.append_assoc, List.cons_append,
                          List.singleton_append, List.nil_append]
                      · refine ScanPass_append _ _ (ScanPass_quote_string bseg hbp) ?_
                        refine ScanPass_append _ _ (ScanPass_ws_cluster s1) ?_
                        refine ScanPass_append _ _ (ScanPass_single ':' (by decide)) ?_
                        refine ScanPass_append _ _ (ScanPass_ws_cluster s2) ?_
                        refine ScanPass_append _ _ hvp ?_
                        refine ScanPass_append _ _ (ScanPass_ws_cluster s3) ?_
                        refine ScanPass_append _ _ (ScanPass_single ',' (by decide)) ?_
                        exact ScanPass_append _ _ (ScanPass_ws_cluster s4) hmp
                    · rw [if_neg hcomma] at h
                      by_cases hclose : c3 = '}'
                      · rw [if_pos hclose] at h
                        simp only [Option.some.injEq] at h
                        subst h
                        subst hq; subst hcolon; subst hclose
                        refine ⟨('"' :: bseg) ++ (s1.takeWhile isJsonWs ++ ([':'] ++
                          (s2.takeWhile isJsonWs ++ (vseg ++ s3.takeWhile isJsonWs)))),
                          ?_, ?_⟩
                        · conv_lhs => rw [hbs]
                          conv_lhs =>
                            rw [show s1 = s1.takeWhile isJsonWs ++ (':' :: s2) from by
                              conv_lhs => rw [← ws_split s1]
                              rw [hw1]]
                          conv_lhs =>
                            rw [show s2 = s2.takeWhile isJsonWs ++ skipWs s2 from
                              (ws_split s2).symm]
                          conv_lhs => rw [hvs]
                          conv_lhs =>
                            rw [show s3 = s3.takeWhile isJsonWs ++ ('}' :: s4) from by
                              conv_lhs => rw [← ws_split s3]
                              rw [hw3]]
                          simp only [List.append_assoc, List.cons_append,
                            List.singleton_append, List.nil_append]
                        · refine ScanPass_append _ _ (ScanPass_quote_string bseg hbp) ?_
                          refine ScanPass_append _ _ (ScanPass_ws_cluster s1) ?_
                          refine ScanPass_append _ _ (ScanPass_single ':' (by decide)) ?_
                          refine ScanPass_append _ _ (ScanPass_ws_cluster s2) ?_
                          exact ScanPass_append _ _ hvp (ScanPass_ws_cluster s3)
                      · rw [if_neg hclose] at h
                        simp at h
              · rw [if_neg hcolon] at h
                simp at h
        · rw [if_neg hq] at h
          simp at h
    · -- parseArrayRest
      rw [parseArrayRest_succ] at h
      cases s with
      | nil => simp at h
      | cons c t =>
        dsimp only at h
        by_cases hc : c = ']'
        · rw [if_pos hc] at h
          simp only [Option.some.injEq] at h
          subst hc; subst h
          exact ⟨[']'], rfl, ScanPass_single ']' (by decide)⟩
        · rw [if_neg hc] at h
          exact ihe (c :: t) r h
    · -- parseElements
      rw [parseElements_succ] at h
      cases hv : parseValue f (skipWs s) with
      | none => rw [hv] at h; simp at h
      | some s1 =>
        rw [hv] at h
        dsimp only at h
        obtain ⟨vseg, hvs, hvp⟩ := ihv (skipWs s) s1 hv
        cases hw1 : skipWs s1 with
        | nil => rw [hw1] at h; simp at h
        | cons c2 s2 =>
          rw [hw1] at h
          dsimp only at h
          by_cases hcomma : c2 = ','
          · rw [if_pos hcomma] at h
            obtain ⟨eseg, hes, hep⟩ := ihe (skipWs s2) r h
            subst hcomma
            refine ⟨s.takeWhile isJsonWs ++ (vseg ++ (s1.takeWhile isJsonWs ++
              ([','] ++ (s2.takeWhile isJsonWs ++ eseg)))), ?_, ?_⟩
            · conv_lhs => rw [← ws_split s]
              conv_lhs => rw [hvs]
              conv_lhs =>
                rw [show s1 = s1.takeWhile isJsonWs ++ (',' :: s2) from by
                  conv_lhs => rw [← ws_split s1]
                  rw [hw1]]
              conv_lhs =>
                rw [show s2 = s2.takeWhile isJsonWs ++ skipWs s2 from
                  (ws_split s2).symm]
              conv_lhs => rw [hes]
              simp only [List.append_assoc, List.cons_append, List.singleton_append,
                List.nil_append]
            · refine ScanPass_append _ _ (ScanPass_ws_cluster s) ?_
              refine ScanPass_append _ _ hvp ?_
              refine ScanPass_append _ _ (ScanPass_ws_cluster s1) ?_
              refine ScanPass_append _ _ (ScanPass_single ',' (by decide)) ?_
              exact ScanPass_append _ _ (ScanPass_ws_cluster s2) hep
          · rw [if_neg hcomma] at h
            by_cases hclose : c2 = ']'
            · rw [if_pos hclose] at h
              simp only [Option.some.injEq] at h
              subst h
              subst hclose
              refine ⟨s.takeWhile isJsonWs ++ (vseg ++ (s1.takeWhile isJsonWs ++ [']'])),
                ?_, ?_⟩
              · conv_lhs => rw [← ws_split s]
                conv_lhs => rw [hvs]
                conv_lhs =>
                  rw [show s1 = s1.takeWhile isJsonWs ++ (']' :: s2) from by
                    conv_lhs => rw [← ws_split s1]
                    rw [hw1]]
                simp only [List.append_assoc, List.cons_append, List.singleton_append,
                List.nil_append]
              · refine ScanPass_append _ _ (ScanPass_ws_cluster s) ?_
                refine ScanPass_append _ _ hvp ?_
                exact ScanPass_append _ _ (ScanPass_ws_cluster s1)
                  (ScanPass_single ']' (by decide))
            · rw [if_neg hclose] at h
              simp at h

theorem scanGo_close_fire (acc rest : List Char) (hacc : acc ≠ []) :
    scanGo 1 false false acc ('}' :: rest) = some (('}' :: acc).reverse) := by
  simp [scanGo, hacc]

theorem findIdx_first_brace_aux (pre : List Char) (hpre : '{' ∉ pre) (t : List Char) :
    ∀ i, List.findIdx? (fun c => c = '{') (pre ++ '{' :: t) i = some (pre.length + i) := by
  induction pre with
  | nil =>
    intro i
    rw [List.nil_append, List.findIdx?_cons]
    simp
  | cons a pre ih =>
    intro i
    rw [List.cons_append, List.findIdx?_cons]
    have ha : ¬(a = '{') := fun h => hpre (by simp [h])
    rw [if_neg (by simp [ha])]
    rw [ih (fun h => hpre (List.mem_cons_of_mem a h)) (i + 1)]
    congr 1
    simp [List.length_cons]
    omega

theorem findIdx_first_brace (pre : List Char) (hpre : '{' ∉ pre) (t : List Char) :
    List.findIdx? (fun c => c = '{') (pre ++ '{' :: t) = some pre.length := by
  have h := findIdx_first_brace_aux pre hpre t 0
  simpa using h

/-- C1: for every text that is a balanced, valid JSON object (beginning
at the first `{` of the text) surrounded by arbitrary noise,
`_extract_json` returns exactly that object's substring — braces inside
string literals, including after escaped quotes, are non-structural —
and the returned substring parses as valid JSON. -/
theorem C1_extract_balanced_object (pre obj post : List Char)
    (hpre : '{' ∉ pre)
    (hhead : obj.head? = some '{')
    (hparse : parseValue (3 * obj.length + 3) obj = some []) :
    _extract_json (pre ++ obj ++ post) = obj ∧ json_loads_ok obj = true := by
  have hparse0 := hparse
  cases obj with
  | nil => simp at hhead
  | cons c0 t =>
    simp only [List.head?_cons, Option.some.injEq] at hhead
    subst hhead
    rw [show 3 * (('{' :: t) : List Char).length + 3
        = (3 * (('{' :: t) : List Char).length + 2) + 1 from rfl,
      parseValue_succ] at hparse
    dsimp only at hparse
    rw [if_pos rfl] at hparse
    obtain ⟨seg2, hsp, hp2⟩ := (parse_pass_all _).2.1 (skipWs t) [] hparse
    have ht : t = t.takeWhile isJsonWs ++ (seg2 ++ ['}']) := by
      conv_lhs => rw [← ws_split t]
      rw [hsp]
    have hfind : List.findIdx? (fun c => c = '{') (pre ++ ('{' :: t) ++ post)
        = some pre.length := by
      rw [List.append_assoc, List.cons_append]
      exact findIdx_first_brace pre hpre (t ++ post)
    have hdrop : (pre ++ ('{' :: t) ++ post).drop pre.length = ('{' :: t) ++ post := by
      rw [List.append_assoc]
      exact List.drop_left pre _
    have hscan : scanGo 0 false false [] (('{' :: t) ++ post) = some ('{' :: t) := by
      rw [List.cons_append]
      rw [scanGo_open_step 0 [] (t ++ post) (by omega)]
      rw [show (0 : Int) + 1 = 1 from by omega]
      conv_lhs => rw [ht]
      rw [List.append_assoc]
      rw [ScanPass_ws_cluster t 1 ['{'] ((seg2 ++ ['}']) ++ post) (by omega)]
      rw [List.append_assoc]
      rw [hp2 1 _ _ (by omega)]
      rw [List.singleton_append]
      rw [scanGo_close_fire _ _ (by simp)]
      congr 1
      conv_rhs => rw [ht]
      simp [List.reverse_append, List.append_assoc]
    have hws0 : skipWs ('{' :: t) = '{' :: t := by
      rw [skipWs, List.dropWhile_cons]
      simp [isJsonWs]
    have hloads : json_loads_ok ('{' :: t) = true := by
      rw [json_loads_ok, hws0, hparse0]
      rfl
    refine ⟨?_, hloads⟩
    rw [_extract_json.eq_def, hfind]
    dsimp only
    rw [hdrop, hscan]
    dsimp only
    rw [hloads]
    simp

/-- Witness for C1: noise around the object `{"a": "}{"}`, whose braces
inside the string literal are non-structural. -/
theorem C1_extract_balanced_object_witness :
    '{' ∉ (['x', ' '] : List Char)
    ∧ (['{', '"', 'a', '"', ':', ' ', '"', '}', '{', '"', '}'] : List Char).head? = some '{'
    ∧ parseValue
        (3 * (['{', '"', 'a', '"', ':', ' ', '"', '}', '{', '"', '}'] : List Char).length + 3)
        ['{', '"', 'a', '"', ':', ' ', '"', '}', '{', '"', '}'] = some []
    ∧ _extract_json (['x', ' '] ++ ['{', '"', 'a', '"', ':', ' ', '"', '}', '{', '"', '}']
        ++ [' ', 'z']) = ['{', '"', 'a', '"', ':', ' ', '"', '}', '{', '"', '}'] :=
  ⟨by decide, by decide, by decide,
   (C1_extract_balanced_object ['x', ' ']
      ['{', '"', 'a', '"', ':', ' ', '"', '}', '{', '"', '}'] [' ', 'z']
      (by decide) (by decide) (by decide)).1⟩
